import Mathlib

/-!
# filebrowser `http/raw.go`: archive and playlist export

A shallow embedding of `http/raw.go` and of the standard-library functions it
calls (`path.Clean`, `filepath.Join`, `filepath.Base`, `url.QueryUnescape`,
`strings.Split/Replace/TrimPrefix`, `fmt.Fprintf`), followed by the theorems
about the resolver, the format selector and the two recursive exporters.

Conventions.
* A Go `string` is a `List Char`; every element stands for one byte of the Go
  string.  All functions below look only at ASCII delimiters, and the theorems
  quantify over every list, so they cover every byte sequence.
* `filepath` is the Unix implementation (separator `/`, no volume names), where
  `filepath.Clean` is the algorithm of `path.Clean`.
* A Go `error` result is an `Option GoErr` (`none` is `nil`); the recursive
  exporters return a `Ret`, which also records that the fuel of the model ran out.
* Collaborators that are not part of `raw.go` (filesystem, access check, archive
  writer, random source, clock, `files.NewFileInfo`, share store, response writer,
  `fileutils.CommonPrefix`, `url.PathEscape`) are fields of an `Env`; what a
  request does to them is recorded in a `World`.
-/

set_option autoImplicit false

namespace RawExport

/-- A Go string: the sequence of its bytes. -/
abbrev GoString := List Char

/-- Go error values that reach the handlers of `raw.go`. -/
inductive GoErr where
  /-- Models `url.EscapeError`: the offending escape, at most three bytes. -/
  | EscapeError (s : GoString)
  /-- Models `errors.New(msg)`. -/
  | errorString (msg : String)
  /-- An error returned by a collaborator (filesystem, archiver, store, random source, sink). -/
  | ext (code : Nat)
  deriving DecidableEq, Repr

deriving instance DecidableEq for Except

/-! ## `strings` -/

/-- Models `strings.Replace(s, string(a), string(b), -1)` for one-byte `a` and `b`. -/
def replaceByte (a b : Char) (s : GoString) : GoString :=
  s.map (fun c => if c = a then b else c)

/-- Models `strings.Replace(s, "+", "%2B", -1)`. -/
def replacePlus (s : GoString) : GoString :=
  s.flatMap (fun c => if c = '+' then ['%', '2', 'B'] else [c])

/-- Models `strings.HasPrefix(s, p)`. -/
def hasPrefix (s p : GoString) : Bool := p.isPrefixOf s

/-- Models `strings.TrimPrefix(s, p)`. -/
def trimPrefix (s p : GoString) : GoString :=
  if hasPrefix s p then s.drop p.length else s

/-- Models `strings.Split(s, ",")`. -/
def splitComma (s : GoString) : List GoString := s.splitOn ','

/-! ## `path.Clean`, `filepath.Join`, `filepath.Base` -/

/-- The backtracking of `path.Clean` at a `..` element, on the output buffer
held in reverse (last byte written first): `out.w--` once, then
`for out.w > dotdot && out.index(out.w) != '/' { out.w-- }`. -/
def backtrack (dotdot : Nat) : List Char → List Char
  | [] => []
  | c :: rest => if dotdot < rest.length ∧ c ≠ '/' then backtrack dotdot rest else rest

/-- The main loop `for r < n { switch ... }` of `path.Clean`.  `path` is the
input from index `r` on, `out` the output buffer in reverse, `dotdot` the index
where `..` must stop.  One unit of fuel per iteration; every iteration consumes
at least one byte, so `path.length` units always reach the end of the input. -/
def cleanLoop (rooted : Bool) : Nat → List Char → List Char → Nat → List Char
  | 0, _, out, _ => out
  | _ + 1, [], out, _ => out
  | fuel + 1, c :: rest, out, dotdot =>
    if c = '/' then
      -- empty path element
      cleanLoop rooted fuel rest out dotdot
    else if c = '.' ∧ (rest = [] ∨ rest.head? = some '/') then
      -- . element
      cleanLoop rooted fuel rest out dotdot
    else if c = '.' ∧ rest.head? = some '.' ∧
        (rest.tail = [] ∨ rest.tail.head? = some '/') then
      -- .. element: remove to last /
      if dotdot < out.length then
        cleanLoop rooted fuel rest.tail (backtrack dotdot out) dotdot
      else if !rooted then
        let out1 := if 0 < out.length then '/' :: out else out
        let out2 := '.' :: '.' :: out1
        cleanLoop rooted fuel rest.tail out2 out2.length
      else
        cleanLoop rooted fuel rest.tail out dotdot
    else
      -- real path element: add slash if needed, copy element
      let out1 :=
        if (rooted ∧ out.length ≠ 1) ∨ (¬ rooted ∧ out.length ≠ 0) then '/' :: out else out
      cleanLoop rooted fuel ((c :: rest).dropWhile (· ≠ '/'))
        (((c :: rest).takeWhile (· ≠ '/')).reverse ++ out1) dotdot

/-- Models `path.Clean`. -/
def Clean (path : GoString) : GoString :=
  match path with
  | [] => ['.']
  | c :: rest =>
    let out :=
      if c = '/' then cleanLoop true rest.length rest ['/'] 1
      else cleanLoop false (c :: rest).length (c :: rest) [] 0
    if out = [] then ['.'] else out.reverse

/-- Models `filepath.Join(a, b)` on Unix: the first non-empty element onwards, joined
by `/` and cleaned; the empty string when both are empty. -/
def filepathJoin (a b : GoString) : GoString :=
  if a ≠ [] then Clean (a ++ '/' :: b)
  else if b ≠ [] then Clean b
  else []

/-- Models `filepath.Base` on Unix. -/
def filepathBase (path : GoString) : GoString :=
  if path = [] then ['.']
  else
    -- strip trailing slashes
    let p := (path.reverse.dropWhile (· = '/'))
    -- find the last element
    let last := (p.takeWhile (· ≠ '/')).reverse
    -- if empty now, it had only slashes
    if last = [] then ['/'] else last

/-! ## `url.QueryUnescape` -/

/-- Models `ishex` of `net/url`. -/
def ishex (c : Char) : Bool :=
  ('0' ≤ c ∧ c ≤ '9') ∨ ('a' ≤ c ∧ c ≤ 'f') ∨ ('A' ≤ c ∧ c ≤ 'F')

/-- Models `unhex` of `net/url`. -/
def unhex (c : Char) : Nat :=
  if '0' ≤ c ∧ c ≤ '9' then c.toNat - '0'.toNat
  else if 'a' ≤ c ∧ c ≤ 'f' then c.toNat - 'a'.toNat + 10
  else if 'A' ≤ c ∧ c ≤ 'F' then c.toNat - 'A'.toNat + 10
  else 0

/-- Models `url.QueryUnescape`: `%XX` becomes the byte `XX`, `+` becomes a space; a
`%` not followed by two hex digits is an `EscapeError` carrying the escape (at
most three bytes).  The first malformed escape in reading order is reported, as
by the checking pass of `unescape`. -/
def QueryUnescape : GoString → Except GoErr GoString
  | [] => .ok []
  | '%' :: h :: l :: rest =>
    if ishex h ∧ ishex l then
      match QueryUnescape rest with
      | .ok t => .ok (Char.ofNat (unhex h * 16 + unhex l) :: t)
      | .error e => .error e
    else .error (.EscapeError ['%', h, l])
  | '%' :: rest => .error (.EscapeError ('%' :: rest))
  | c :: rest =>
    match QueryUnescape rest with
    | .ok t => .ok ((if c = '+' then ' ' else c) :: t)
    | .error e => .error e

/-! ## `raw.go`: the resolver and the format selector -/

/-- Models `slashClean`. -/
def slashClean (name : GoString) : GoString :=
  let name := if name = [] ∨ name.head? ≠ some '/' then '/' :: name else name
  Clean name

/-- The loop body of `parseQueryFiles` over the split names: the first name
that fails to unescape aborts with its error and no list. -/
def resolveNames (fPath : GoString) : List GoString → Except GoErr (List GoString)
  | [] => .ok []
  | name :: names =>
    match QueryUnescape (replacePlus name) with
    | .error e => .error e
    | .ok name1 =>
      match resolveNames fPath names with
      | .error e => .error e
      | .ok fileSlice => .ok (filepathJoin fPath (slashClean name1) :: fileSlice)

/-- Models `parseQueryFiles`; `files` is `r.URL.Query().Get("files")` (the empty string
when the parameter is absent) and `fPath` is `f.Path`. -/
def parseQueryFiles (files : GoString) (fPath : GoString) : Except GoErr (List GoString) :=
  let names := splitComma files
  if names.length = 0 then .ok [fPath]
  else resolveNames fPath names

/-- The codecs of `github.com/mholt/archiver` that `parseQueryAlgorithm` constructs. -/
inductive Codec where
  | Zip | Tar | TarGz | TarBz2 | TarXz | TarLz4 | TarSz
  deriving DecidableEq, Repr

/-- Models `parseQueryAlgorithm`; `algo` is `r.URL.Query().Get("algo")`.  The result is
the Go triple (extension, writer, error); a `nil` writer is `none`. -/
def parseQueryAlgorithm (algo : String) : String × Option Codec × Option GoErr :=
  if algo = "zip" ∨ algo = "true" ∨ algo = "" then (".zip", some .Zip, none)
  else if algo = "tar" then (".tar", some .Tar, none)
  else if algo = "targz" then (".tar.gz", some .TarGz, none)
  else if algo = "tarbz2" then (".tar.bz2", some .TarBz2, none)
  else if algo = "tarxz" then (".tar.xz", some .TarXz, none)
  else if algo = "tarlz4" then (".tar.lz4", some .TarLz4, none)
  else if algo = "tarsz" then (".tar.sz", some .TarSz, none)
  else ("", none, some (.errorString "format not implemented"))

/-! ## `fmt.Fprintf(w, format)` with no operands -/

/-- Models `parsenum` of `fmt`, on the bytes up to its `end`: whether a number was read,
and the unread rest.  A number above `1e6` gives up and skips to `end`. -/
def parsenum : List Char → Nat → Bool → Bool × List Char
  | [], _, isnum => (isnum, [])
  | c :: rest, num, isnum =>
    if '0' ≤ c ∧ c ≤ '9' then
      if 1000000 < num then (false, [])
      else parsenum rest (num * 10 + (c.toNat - '0'.toNat)) true
    else (isnum, c :: rest)

/-- Models `parseArgNumber` of `fmt` on a format that starts with `[`: the width of the
index text and whether it is a well-formed `[n]`. -/
def parseArgNumber (format : List Char) : Nat × Bool :=
  if format.length < 3 then (1, false)
  else if ']' ∈ format.drop 1 then
    let inner := (format.drop 1).takeWhile (· ≠ ']')
    let (isnum, rest) := parsenum inner 0 false
    (inner.length + 2, isnum ∧ rest = [])
  else (1, false)

/-- Models `(*pp).argNumber` with no operands: the unread format, `found`, and whether
`goodArgNum` was cleared (any index is out of range when there is no operand). -/
def argNumber (format : List Char) : List Char × Bool × Bool :=
  match format with
  | '[' :: _ =>
    let (wid, ok) := parseArgNumber format
    (format.drop wid, ok, true)
  | _ => (format, false, false)

/-- Models `utf8.DecodeRuneInString` followed by `writeRune`, on bytes: the bytes written
for the verb and the number of bytes read.  An invalid encoding reads one byte and
writes `U+FFFD`. -/
def decodeVerb (s : List Char) : List Char × Nat :=
  let runeError : List Char := [Char.ofNat 0xEF, Char.ofNat 0xBF, Char.ofNat 0xBD]
  let cont (c : Char) : Bool := 0x80 ≤ c.toNat ∧ c.toNat ≤ 0xBF
  match s with
  | [] => (runeError, 0)
  | s0 :: t =>
    let b := s0.toNat
    if b < 0x80 then ([s0], 1)
    else
      let sz : Nat :=
        if 0xC2 ≤ b ∧ b ≤ 0xDF then 2 else if 0xE0 ≤ b ∧ b ≤ 0xEF then 3
        else if 0xF0 ≤ b ∧ b ≤ 0xF4 then 4 else 0
      let lo : Nat := if b = 0xE0 then 0xA0 else if b = 0xF0 then 0x90 else 0x80
      let hi : Nat := if b = 0xED then 0x9F else if b = 0xF4 then 0x8F else 0xBF
      if sz = 0 ∨ s.length < sz then (runeError, 1)
      else
        match t with
        | s1 :: t1 =>
          if s1.toNat < lo ∨ hi < s1.toNat then (runeError, 1)
          else if sz ≤ 2 then ([s0, s1], 2)
          else
            match t1 with
            | s2 :: t2 =>
              if !cont s2 then (runeError, 1)
              else if sz ≤ 3 then ([s0, s1, s2], 3)
              else
                match t2 with
                | s3 :: _ => if !cont s3 then (runeError, 1) else ([s0, s1, s2, s3], 4)
                | [] => (runeError, 1)
            | [] => (runeError, 1)
        | [] => (runeError, 1)

/-- One verb of `(*pp).doPrintf` when there is no operand; `format` starts right
after the `%`.  Gives the bytes written and the unread format. -/
def printVerb (format : List Char) : List Char × List Char :=
  -- flags
  let s := format.dropWhile (fun c => c = '#' ∨ c = '0' ∨ c = '+' ∨ c = '-' ∨ c = ' ')
  -- explicit argument index
  let (s, afterIndex, bad1) := argNumber s
  -- width
  let (out1, s, afterIndex, bad2) : List Char × List Char × Bool × Bool :=
    match s with
    | '*' :: t => ("%!(BADWIDTH)".toList, t, false, false)
    | _ =>
      let (widPresent, t) := parsenum s 0 false
      ([], t, afterIndex, afterIndex && widPresent)
  -- precision
  let (out2, s, afterIndex, bad3) : List Char × List Char × Bool × Bool :=
    match s with
    -- `if i+1 < end && format[i] == '.'`: a final `.` is the verb, not a precision
    | '.' :: c :: t1 =>
      let (t, afterIndex2, badA) := argNumber (c :: t1)
      match t with
      | '*' :: u => ("%!(BADPREC)".toList, u, false, afterIndex || badA)
      | _ => ([], (parsenum t 0 false).2, afterIndex2, afterIndex || badA)
    | _ => ([], s, afterIndex, false)
  let (s, bad4) : List Char × Bool :=
    if !afterIndex then ((argNumber s).1, (argNumber s).2.2) else (s, false)
  match s with
  | [] => (out1 ++ out2 ++ "%!(NOVERB)".toList, [])
  | c :: _ =>
    let (verb, size) := decodeVerb s
    if c = '%' then (out1 ++ out2 ++ ['%'], s.drop size)
    else if bad1 || bad2 || bad3 || bad4 then
      (out1 ++ out2 ++ "%!".toList ++ verb ++ "(BADINDEX)".toList, s.drop size)
    else (out1 ++ out2 ++ "%!".toList ++ verb ++ "(MISSING)".toList, s.drop size)

/-- The loop of `(*pp).doPrintf` with no operand: text up to a `%` is copied, each
`%` starts a verb.  One unit of fuel per byte of the format. -/
def doPrintf : Nat → List Char → List Char
  | 0, _ => []
  | _ + 1, [] => []
  | fuel + 1, c :: rest =>
    if c = '%' then
      let (out, rest1) := printVerb rest
      out ++ doPrintf fuel rest1
    else c :: doPrintf fuel rest

/-- The bytes `fmt.Fprintf(w, format)` hands to `w.Write` when called with a format
and no operand. -/
def Sprintf0 (format : GoString) : GoString := doPrintf format.length format

/-! ## `encoding/base64` -/

/-- The alphabet of `base64.URLEncoding`. -/
def encodeURL : List Char :=
  "ABCDEFGHIJKLMNOPQRSTUVWXYZabcdefghijklmnopqrstuvwxyz0123456789-_".toList

/-- Models `base64.URLEncoding.EncodeToString` (with `=` padding). -/
def EncodeToString : List Nat → GoString
  | [] => []
  | [a] => [encodeURL.getD (a / 4) 'A', encodeURL.getD (a % 4 * 16) 'A', '=', '=']
  | [a, b] =>
    [encodeURL.getD (a / 4) 'A', encodeURL.getD (a % 4 * 16 + b / 16) 'A',
      encodeURL.getD (b % 16 * 4) 'A', '=']
  | a :: b :: c :: rest =>
    encodeURL.getD (a / 4) 'A' :: encodeURL.getD (a % 4 * 16 + b / 16) 'A' ::
      encodeURL.getD (b % 16 * 4 + c / 64) 'A' :: encodeURL.getD (c % 64) 'A' ::
      EncodeToString rest

/-! ## `raw.go`: the environment of the exporters

The collaborators of `raw.go` are parameters of the model: the filesystem
`d.user.Fs`, the access check `d.Check`, the archive writer, the random source,
the clock, `files.NewFileInfo`, the share store and the response writer.  The
effects of one request are collected in a `World`. -/

/-- Models `os.FileInfo`, as far as `raw.go` reads it. -/
structure FileInfo where
  name : GoString
  isDir : Bool
  deriving DecidableEq, Repr

/-- An opened `afero.File`: what `Name()` returns and the outcome of `Readdirnames(0)`. -/
structure File where
  name : GoString
  readdirnames : Except GoErr (List GoString)
  deriving DecidableEq

/-- Models `archiver.File`: the `os.FileInfo`, the `CustomName` and the `ReadCloser`. -/
structure ArchiverFile where
  info : FileInfo
  customName : GoString
  readCloser : File
  deriving DecidableEq

/-- Models `share.Link`. -/
structure Link where
  Path : GoString
  Hash : GoString
  Expire : Int
  UserID : Nat
  deriving DecidableEq

/-- A call on the filesystem `d.user.Fs` (or on a file it opened), with its path. -/
inductive FsCall where
  | Stat (path : GoString)
  | Open (path : GoString)
  | Readdirnames (path : GoString)
  deriving DecidableEq

/-- The path a filesystem call is about. -/
def FsCall.path : FsCall → GoString
  | .Stat p => p
  | .Open p => p
  | .Readdirnames p => p

/-- The paths of the `Stat` calls of a trace, in order: the permitted paths visited. -/
def statPaths : List FsCall → List GoString
  | [] => []
  | .Stat p :: cs => p :: statPaths cs
  | _ :: cs => statPaths cs

/-- The collaborators of one request. -/
structure Env where
  /-- Models `d.Check`. -/
  Check : GoString → Bool
  /-- Models `d.user.Fs.Stat`. -/
  Stat : GoString → Except GoErr FileInfo
  /-- Models `d.user.Fs.Open`. -/
  Open : GoString → Except GoErr File
  /-- Models `ar.Create(w)` of the writer of a codec. -/
  arCreate : Codec → Option GoErr
  /-- Models `ar.Write(f)`: the error, given the files written so far. -/
  arWrite : Codec → List ArchiverFile → ArchiverFile → Option GoErr
  /-- Models `rand.Read`: the error of the `k`-th call. -/
  randErr : Nat → Option GoErr
  /-- Models `rand.Read`: byte `i` of the `k`-th call. -/
  randByte : Nat → Nat → Nat
  /-- Models `time.Now().Unix()` at the `k`-th call of `rand.Read`. -/
  now : Nat → Int
  /-- Models `files.NewFileInfo` with `Expand: true` on a path: the `Type` of the result. -/
  NewFileInfoType : GoString → Except GoErr String
  /-- Models `d.store.Share.Save(s)`: the error, given the links saved so far. -/
  ShareSave : List Link → Link → Option GoErr
  /-- Models `w.Write(p)` on the response: the error, given the chunks written so far. -/
  sinkWrite : List GoString → GoString → Option GoErr
  /-- Models `d.user.ID`. -/
  userID : Nat
  /-- Models `fileutils.CommonPrefix('/', paths...)`. -/
  CommonPrefix : List GoString → GoString
  /-- Models `url.PathEscape`. -/
  PathEscape : GoString → GoString

/-- The effects of one request, in order of occurrence. -/
structure World where
  /-- The filesystem calls made. -/
  calls : List FsCall
  /-- The archive: every file `ar.Write` accepted, with the path visited when it was written. -/
  written : List (GoString × ArchiverFile)
  /-- The chunks accepted by the response writer. -/
  sink : List GoString
  /-- The links the share store accepted. -/
  links : List Link
  /-- The number of `rand.Read` calls made. -/
  rand : Nat
  /-- The `Content-Disposition` header. -/
  header : Option GoString
  deriving DecidableEq

/-- The state before a request. -/
def World.init : World := ⟨[], [], [], [], 0, none⟩

/-- How a call of a recursive exporter ends. -/
inductive Ret where
  /-- It returned `nil`. -/
  | nil
  /-- It returned the error `e`. -/
  | err (e : GoErr)
  /-- The fuel of the model ran out before it returned. -/
  | outOfFuel
  deriving DecidableEq

/-- Models `for _, x := range xs { err = f(x); if err != nil { return err } }`. -/
def forEach (f : GoString → World → World × Ret) : List GoString → World → World × Ret
  | [], w => (w, .nil)
  | x :: xs, w =>
    match f x w with
    | (w1, .nil) => forEach f xs w1
    | (w1, r) => (w1, r)

/-! ## `raw.go`: the archive exporter -/

/-- Models `addFile`.  One unit of fuel per level of recursion.  (`defer file.Close()`
has no effect on the `World`.) -/
def addFile (env : Env) (ar : Codec) (commonPath : GoString) :
    Nat → GoString → World → World × Ret
  | 0, _, w => (w, .outOfFuel)
  | fuel + 1, path, w =>
    -- Checks are always done with paths with "/" as path separator.
    let path := replaceByte '\\' '/' path
    if !env.Check path then (w, .nil)
    else
      let w := { w with calls := w.calls ++ [.Stat path] }
      match env.Stat path with
      | .error e => (w, .err e)
      | .ok info =>
        let w := { w with calls := w.calls ++ [.Open path] }
        match env.Open path with
        | .error e => (w, .err e)
        | .ok file =>
          let filename := trimPrefix (trimPrefix path commonPath) ['/']
          let f : ArchiverFile := ⟨info, filename, file⟩
          match env.arWrite ar (w.written.map Prod.snd) f with
          | some e => (w, .err e)
          | none =>
            let w := { w with written := w.written ++ [(path, f)] }
            if info.isDir then
              let w := { w with calls := w.calls ++ [.Readdirnames path] }
              match file.readdirnames with
              | .error e => (w, .err e)
              | .ok names =>
                forEach (fun name => addFile env ar commonPath fuel (filepathJoin path name))
                  names w
            else (w, .nil)

/-- The request, as far as `raw.go` reads it: the query parameters. -/
structure Request where
  files : GoString
  algo : String
  base : GoString

/-- The `*files.FileInfo` handed to the directory handlers: `Path` and `Name`. -/
structure DirInfo where
  Path : GoString
  Name : GoString

/-- The attachment name of the directory handlers: `file.Name`, or the default
when that is `.` or empty, followed by the extension. -/
def attachmentName (file : DirInfo) (dflt ext : GoString) : GoString :=
  (if file.Name = ['.'] ∨ file.Name = [] then dflt else file.Name) ++ ext

/-- Models `w.Header().Set("Content-Disposition", "attachment; filename*=utf-8''"+url.PathEscape(name))`. -/
def setDisposition (env : Env) (w : World) (name : GoString) : World :=
  { w with header := some ("attachment; filename*=utf-8''".toList ++ env.PathEscape name) }

/-- Models `fmt.Fprintf(w, format)` on the response writer, with no operand. -/
def Fprintf (env : Env) (w : World) (format : GoString) : World × Option GoErr :=
  let p := Sprintf0 format
  match env.sinkWrite w.sink p with
  | some e => (w, some e)
  | none => ({ w with sink := w.sink ++ [p] }, none)

/-! ## `raw.go`: the playlist exporter -/

/-- Models `addPlaylist`.  One unit of fuel per level of recursion.  (`defer
file.Close()` has no effect on the `World`; the second `if err != nil` after it
tests the error of `Open` again and is never taken.) -/
def addPlaylist (env : Env) (r : Request) : Nat → GoString → World → World × Ret
  | 0, _, w => (w, .outOfFuel)
  | fuel + 1, path, w =>
    -- Checks are always done with paths with "/" as path separator.
    let path := replaceByte '\\' '/' path
    if !env.Check path then (w, .nil)
    else
      let w := { w with calls := w.calls ++ [.Stat path] }
      match env.Stat path with
      | .error e => (w, .err e)
      | .ok info =>
        let w := { w with calls := w.calls ++ [.Open path] }
        match env.Open path with
        | .error e => (w, .err e)
        | .ok file =>
          if info.isDir then
            let w := { w with calls := w.calls ++ [.Readdirnames path] }
            match file.readdirnames with
            | .error e => (w, .err e)
            | .ok names =>
              forEach (fun name => addPlaylist env r fuel (filepathJoin path name)) names w
          else
            -- Generate 24h shared links for included files
            let k := w.rand
            let w := { w with rand := k + 1 }
            match env.randErr k with
            | some e => (w, .err e)
            | none =>
              let str := EncodeToString ((List.range 6).map (fun i => env.randByte k i % 256))
              let expire := env.now k + 24 * 3600
              match env.NewFileInfoType path with
              | .error e => (w, .err e)
              | .ok type =>
                if type ≠ "video" ∧ type ≠ "audio" then (w, .nil)
                else
                  let s : Link := ⟨file.name, str, expire, env.userID⟩
                  match env.ShareSave w.links s with
                  | some e => (w, .err e)
                  | none =>
                    let w := { w with links := w.links ++ [s] }
                    let baseURL := r.base
                    let str := baseURL ++ "/api/public/dl/".toList ++ s.Hash ++ ['/']
                      ++ filepathBase s.Path ++ ['\n']
                    -- `_, err = fmt.Fprintf(ar, str)`: `err` is not read afterwards
                    ((Fprintf env w str).1, .nil)

/-- Models `rawPlaylistHandler`: the state after the request, the status and the error. -/
def rawPlaylistHandler (env : Env) (r : Request) (file : DirInfo) (fuel : Nat) (w : World) :
    World × Nat × Ret :=
  match parseQueryFiles r.files file.Path with
  | .error e => (w, 500, .err e)
  | .ok filenames =>
    let w := setDisposition env w (attachmentName file "playlist".toList ".m3u".toList)
    match Fprintf env w "#EXTM3U\n".toList with
    | (w, some e) => (w, 500, .err e)
    | (w, none) =>
      match forEach (addPlaylist env r fuel) filenames w with
      | (w, .nil) => (w, 0, .nil)
      | (w, .err e) => (w, 500, .err e)
      | (w, .outOfFuel) => (w, 0, .outOfFuel)

/-- Models `rawDirHandler`: the state after the request, the status and the error.
(`defer ar.Close()` has no effect on the `World`.) -/
def rawDirHandler (env : Env) (r : Request) (file : DirInfo) (fuel : Nat) (w : World) :
    World × Nat × Ret :=
  if r.algo = "m3u" then rawPlaylistHandler env r file fuel w
  else
    match parseQueryFiles r.files file.Path with
    | .error e => (w, 500, .err e)
    | .ok filenames =>
      match parseQueryAlgorithm r.algo with
      | (_, _, some e) => (w, 500, .err e)
      -- not reached: `parseQueryAlgorithm` returns a nil writer only with an error
      | (_, none, none) => (w, 500, .err (.errorString "format not implemented"))
      | (extension, some ar, none) =>
        let w := setDisposition env w (attachmentName file "archive".toList extension.toList)
        match env.arCreate ar with
        | some e => (w, 500, .err e)
        | none =>
          let commonDir := env.CommonPrefix filenames
          match forEach (addFile env ar commonDir fuel) filenames w with
          | (w, .nil) => (w, 0, .nil)
          | (w, .err e) => (w, 500, .err e)
          | (w, .outOfFuel) => (w, 0, .outOfFuel)

/-! ## Notions used to state the exporter theorems -/

/-- What a run of the archive exporter from `w` to `w1` with result `r` did: it
only appended filesystem calls and archive entries; every call and every entry is
for a permitted path; every entry is named by the rule of `addFile`; and the
entries match the paths visited (the `Stat` calls), in order.  After an error the
last path visited is the failing one: it has its entry exactly when the failing
call is its `Readdirnames`. -/
def ArchiveRun (env : Env) (base : GoString) (w w1 : World) (r : Ret) : Prop :=
  ∃ newC newW,
    w1 = { w with calls := w.calls ++ newC, written := w.written ++ newW } ∧
    (∀ c ∈ newC, env.Check c.path = true) ∧
    (∀ e ∈ newW, env.Check e.1 = true ∧
      e.2.customName = trimPrefix (trimPrefix e.1 base) ['/']) ∧
    (r = .nil → statPaths newC = newW.map Prod.fst) ∧
    (∀ err, r = .err err →
      (statPaths newC = newW.map Prod.fst ∧ ∃ q, newC.getLast? = some (.Readdirnames q)) ∨
      (∃ q, statPaths newC = newW.map Prod.fst ++ [q] ∧
        (newC.getLast? = some (.Stat q) ∨ newC.getLast? = some (.Open q))))

/-- At the path `p`, `Stat` and `Open` succeed and, for a directory,
`Readdirnames` succeeds and every child has a smaller rank and is in `S` again
unless it is denied. -/
def nodeOk (env : Env) (S : List GoString) (rank : GoString → Nat) (p : GoString) : Bool :=
  match env.Stat p, env.Open p with
  | .ok info, .ok file =>
    !info.isDir ||
      (match file.readdirnames with
       | .ok names => names.all (fun n =>
           decide (rank (replaceByte '\\' '/' (filepathJoin p n)) < rank p) &&
             (!env.Check (replaceByte '\\' '/' (filepathJoin p n)) ||
               S.contains (replaceByte '\\' '/' (filepathJoin p n))))
       | .error _ => false)
  | _, _ => false

/-- The filesystem is a finite tree on which every call of a walk succeeds: `S`
holds the permitted paths a walk can reach, and `rank` bounds the height of each
path. -/
def WalkOk (env : Env) (S : List GoString) (rank : GoString → Nat) : Prop :=
  ∀ p ∈ S, env.Check p = true → nodeOk env S rank p = true

/-- Every target has a rank below the fuel and is in `S` unless it is denied. -/
def TargetsOk (env : Env) (S : List GoString) (rank : GoString → Nat) (fuel : Nat)
    (targets : List GoString) : Prop :=
  ∀ t ∈ targets, rank (replaceByte '\\' '/' t) < fuel ∧
    (env.Check (replaceByte '\\' '/' t) = true → replaceByte '\\' '/' t ∈ S)

/-- The permitted non-directory nodes at or below `path`, in depth-first order
(children in the order `Readdirnames` lists them); a denied path contributes
nothing, itself or by its subtree. -/
def walkFiles (env : Env) : Nat → GoString → List (GoString × File)
  | 0, _ => []
  | fuel + 1, path =>
    if !env.Check (replaceByte '\\' '/' path) then []
    else
      match env.Stat (replaceByte '\\' '/' path), env.Open (replaceByte '\\' '/' path) with
      | .ok info, .ok file =>
        if info.isDir then
          match file.readdirnames with
          | .ok names =>
            names.flatMap (fun n =>
              walkFiles env fuel (filepathJoin (replaceByte '\\' '/' path) n))
          | .error _ => []
        else [(replaceByte '\\' '/' path, file)]
      | _, _ => []

/-- The media kind of a path is video or audio. -/
def isMedia (env : Env) (p : GoString) : Bool :=
  env.NewFileInfoType p = .ok "video" ∨ env.NewFileInfoType p = .ok "audio"

/-- The token of the `k`-th draw from the random source. -/
def tokenOf (env : Env) (k : Nat) : GoString :=
  EncodeToString ((List.range 6).map (fun i => env.randByte k i % 256))

/-- The share link of the specification for a file and the `k`-th draw: the
file, the token, expiry 24 hours after the draw, the owner. -/
def linkOf (env : Env) (k : Nat) (file : File) : Link :=
  ⟨file.name, tokenOf env k, env.now k + 24 * 3600, env.userID⟩

/-- The download line of the specification, before `fmt.Fprintf` reads it as a
format: `<base-url>/api/public/dl/<token>/<filename>\n`. -/
def downloadLine (r : Request) (env : Env) (k : Nat) (file : File) : GoString :=
  r.base ++ "/api/public/dl/".toList ++ tokenOf env k ++ ['/'] ++ filepathBase file.name ++ ['\n']

/-- The media files among the files visited, each with the index of its draw:
one draw is made for every file visited, media or not, starting from `k`. -/
def playlistItems (env : Env) : List (GoString × File) → Nat → List (Nat × File)
  | [], _ => []
  | (p, f) :: rest, k =>
    (if isMedia env p then [(k, f)] else []) ++ playlistItems env rest (k + 1)

/-- What a run of the playlist exporter that visits the files `files` does from
`w` to `w1`: it appends filesystem calls, makes one draw per file, and for each
media file among them, in order, saves its link and writes its download line. -/
def PlaylistRun (env : Env) (r : Request) (files : List (GoString × File))
    (w w1 : World) : Prop :=
  ∃ newC,
    w1 = { w with
      calls := w.calls ++ newC,
      sink := w.sink ++
        (playlistItems env files w.rand).map (fun i => Sprintf0 (downloadLine r env i.1 i.2)),
      links := w.links ++ (playlistItems env files w.rand).map (fun i => linkOf env i.1 i.2),
      rand := w.rand + files.length }

/-- The files a playlist export visits: the permitted non-directory nodes at or
below the targets, in depth-first order. -/
def visitedFiles (env : Env) (fuel : Nat) (targets : List GoString) : List (GoString × File) :=
  targets.flatMap (walkFiles env fuel)

/-- While `addFile` processes `path` from the state `w`, a call fails at the path
`q` (`path` itself or a path below it) with the error `e`, and every call before
it succeeds: the failing call is the `Stat`, the `Open`, the archive `Write` or
the `Readdirnames` of `q`.  The state `w2` holds what was done up to the failing
call; `listed` tells that the failing call is `Readdirnames`, which comes after
the archive `Write` for `q`.  In a directory whose own calls succeed, the failure
lies in the child `c`, after the children `pre` before it were processed without
error. -/
inductive FailsIn (env : Env) (ar : Codec) (base : GoString) :
    Nat → GoString → World → World → GoErr → GoString → Bool → Prop where
  | stat (fuel : Nat) (path : GoString) (w : World) (e : GoErr)
      (hck : env.Check (replaceByte '\\' '/' path) = true)
      (hstat : env.Stat (replaceByte '\\' '/' path) = .error e) :
      FailsIn env ar base (fuel + 1) path w
        { w with calls := w.calls ++ [.Stat (replaceByte '\\' '/' path)] }
        e (replaceByte '\\' '/' path) false
  | openFile (fuel : Nat) (path : GoString) (w : World) (e : GoErr) (info : FileInfo)
      (hck : env.Check (replaceByte '\\' '/' path) = true)
      (hstat : env.Stat (replaceByte '\\' '/' path) = .ok info)
      (hopen : env.Open (replaceByte '\\' '/' path) = .error e) :
      FailsIn env ar base (fuel + 1) path w
        { w with calls := w.calls ++
            [.Stat (replaceByte '\\' '/' path), .Open (replaceByte '\\' '/' path)] }
        e (replaceByte '\\' '/' path) false
  | write (fuel : Nat) (path : GoString) (w : World) (e : GoErr) (info : FileInfo)
      (file : File)
      (hck : env.Check (replaceByte '\\' '/' path) = true)
      (hstat : env.Stat (replaceByte '\\' '/' path) = .ok info)
      (hopen : env.Open (replaceByte '\\' '/' path) = .ok file)
      (hwr : env.arWrite ar (w.written.map Prod.snd)
        ⟨info, trimPrefix (trimPrefix (replaceByte '\\' '/' path) base) ['/'], file⟩ = some e) :
      FailsIn env ar base (fuel + 1) path w
        { w with calls := w.calls ++
            [.Stat (replaceByte '\\' '/' path), .Open (replaceByte '\\' '/' path)] }
        e (replaceByte '\\' '/' path) false
  | readdirnames (fuel : Nat) (path : GoString) (w : World) (e : GoErr) (info : FileInfo)
      (file : File)
      (hck : env.Check (replaceByte '\\' '/' path) = true)
      (hstat : env.Stat (replaceByte '\\' '/' path) = .ok info)
      (hopen : env.Open (replaceByte '\\' '/' path) = .ok file)
      (hwr : env.arWrite ar (w.written.map Prod.snd)
        ⟨info, trimPrefix (trimPrefix (replaceByte '\\' '/' path) base) ['/'], file⟩ = none)
      (hdir : info.isDir = true) (hrd : file.readdirnames = .error e) :
      FailsIn env ar base (fuel + 1) path w
        { w with
          calls := w.calls ++ [.Stat (replaceByte '\\' '/' path),
            .Open (replaceByte '\\' '/' path), .Readdirnames (replaceByte '\\' '/' path)],
          written := w.written ++ [(replaceByte '\\' '/' path,
            ⟨info, trimPrefix (trimPrefix (replaceByte '\\' '/' path) base) ['/'], file⟩)] }
        e (replaceByte '\\' '/' path) true
  | child (fuel : Nat) (path : GoString) (w w1 w2 : World) (e : GoErr) (info : FileInfo)
      (file : File) (pre post : List GoString) (c q : GoString) (listed : Bool)
      (hck : env.Check (replaceByte '\\' '/' path) = true)
      (hstat : env.Stat (replaceByte '\\' '/' path) = .ok info)
      (hopen : env.Open (replaceByte '\\' '/' path) = .ok file)
      (hwr : env.arWrite ar (w.written.map Prod.snd)
        ⟨info, trimPrefix (trimPrefix (replaceByte '\\' '/' path) base) ['/'], file⟩ = none)
      (hdir : info.isDir = true) (hrd : file.readdirnames = .ok (pre ++ c :: post))
      (hpre : forEach (fun name => addFile env ar base fuel
            (filepathJoin (replaceByte '\\' '/' path) name)) pre
          { w with
            calls := w.calls ++ [.Stat (replaceByte '\\' '/' path),
              .Open (replaceByte '\\' '/' path), .Readdirnames (replaceByte '\\' '/' path)],
            written := w.written ++ [(replaceByte '\\' '/' path,
              ⟨info, trimPrefix (trimPrefix (replaceByte '\\' '/' path) base) ['/'], file⟩)] }
          = (w1, .nil))
      (hchild : FailsIn env ar base fuel (filepathJoin (replaceByte '\\' '/' path) c)
        w1 w2 e q listed) :
      FailsIn env ar base (fuel + 1) path w w2 e q listed

/-! ## Example environments -/

/-- The longest common initial part of two lists. -/
def commonInit : List GoString → List GoString → List GoString
  | a :: as, b :: bs => if a = b then a :: commonInit as bs else []
  | _, _ => []

/-- Modelled from the spec: `fileutils.CommonPrefix('/', paths...)`, which is not
among the sources.  Section 4.2: the longest path prefix, aligned on separator
boundaries, common to every entry (for `/ab/x` and `/abc/y` it is `/`, not
`/ab`); the common prefix of a single path is the path itself. -/
def CommonPrefix (paths : List GoString) : GoString :=
  match paths with
  | [] => []
  | [p] => p
  | p :: rest =>
    let c := rest.foldl (fun c v => commonInit c (v.splitOn '/')) (p.splitOn '/')
    if c = [[]] then ['/'] else ['/'].intercalate c

/-- An environment over a finite tree: `nodes` lists each path with `none` for a
regular file and `some names` for a directory; `denied` are the paths `Check`
rejects; `kinds` gives the media type of a file (`text` when absent).  Every
collaborator succeeds; a path that is not listed does not exist (error 2), and
`Readdirnames` on a regular file fails (error 20). -/
def treeEnv (nodes : List (String × Option (List String))) (denied : List String)
    (kinds : List (String × String)) : Env where
  Check p := !(denied.map String.toList).contains p
  Stat p :=
    match (nodes.map (fun n => (n.1.toList, n.2))).lookup p with
    | some kind => .ok ⟨filepathBase p, kind.isSome⟩
    | none => .error (.ext 2)
  Open p :=
    match (nodes.map (fun n => (n.1.toList, n.2))).lookup p with
    | some (some names) => .ok ⟨p, .ok (names.map String.toList)⟩
    | some none => .ok ⟨p, .error (.ext 20)⟩
    | none => .error (.ext 2)
  arCreate _ := none
  arWrite _ _ _ := none
  randErr _ := none
  randByte k i := 16 * k + i
  now k := 1700000000 + k
  NewFileInfoType p :=
    match (kinds.map (fun n => (n.1.toList, n.2))).lookup p with
    | some t => .ok t
    | none => .ok "text"
  ShareSave _ _ := none
  sinkWrite _ _ := none
  userID := 1
  CommonPrefix paths := CommonPrefix paths
  PathEscape s := s

/-- The tree `/root` with `a.txt`, `dir/b.txt` and the denied directory `secret`. -/
def rootEnv : Env :=
  treeEnv
    [("/root", some ["a.txt", "dir", "secret"]), ("/root/a.txt", none),
     ("/root/dir", some ["b.txt"]), ("/root/dir/b.txt", none),
     ("/root/secret", some ["key"]), ("/root/secret/key", none)]
    ["/root/secret"] []

/-- The tree `/music` with the audio file `song.mp3`, the text file `notes.txt`,
and the directory `live` holding the video `gig.mp4`. -/
def musicEnv : Env :=
  treeEnv
    [("/music", some ["song.mp3", "notes.txt", "live"]), ("/music/song.mp3", none),
     ("/music/notes.txt", none), ("/music/live", some ["gig.mp4"]),
     ("/music/live/gig.mp4", none)]
    [] [("/music/song.mp3", "audio"), ("/music/live/gig.mp4", "video")]

/-- The rank of the paths of `rootEnv`: the height of the subtree. -/
def rootRank (p : GoString) : Nat :=
  if p = "/root".toList then 2
  else if p = "/root/dir".toList ∨ p = "/root/secret".toList then 1
  else 0

/-- The tree `/root` with the files `f1`, `f2`, `f4` and `f5`; `f3` is listed by
the directory but `Stat` does not find it. -/
def fiveEnv : Env :=
  treeEnv
    [("/root", some ["f1", "f2", "f3", "f4", "f5"]), ("/root/f1", none), ("/root/f2", none),
     ("/root/f4", none), ("/root/f5", none)]
    [] []

/-- The tree `/music` holding the audio file `song.mp3` and the text file `notes.txt`. -/
def songEnv : Env :=
  treeEnv
    [("/music", some ["song.mp3", "notes.txt"]), ("/music/song.mp3", none),
     ("/music/notes.txt", none)]
    [] [("/music/song.mp3", "audio")]

/-- The rank of the paths of `songEnv` and `musicEnv`: the height of the subtree. -/
def musicRank (p : GoString) : Nat :=
  if p = "/music".toList then 2 else if p = "/music/live".toList then 1 else 0

/-- The tree `/root` with `f1`, `f5` and the directory `dir`, which holds `g1` and
the directory `sub`; `Readdirnames` on `sub` fails (error 13). -/
def lockedEnv : Env :=
  { treeEnv
      [("/root", some ["f1", "dir", "f5"]), ("/root/f1", none), ("/root/f5", none),
       ("/root/dir", some ["g1", "sub"]), ("/root/dir/g1", none), ("/root/dir/sub", some [])]
      [] [] with
    Open := fun p =>
      if p = "/root/dir/sub".toList then .ok ⟨p, .error (.ext 13)⟩
      else (treeEnv
        [("/root", some ["f1", "dir", "f5"]), ("/root/f1", none), ("/root/f5", none),
         ("/root/dir", some ["g1", "sub"]), ("/root/dir/g1", none)] [] []).Open p }

/-- The tree `/music` holding the audio files `100%` and `b.mp3`. -/
def percentEnv : Env :=
  treeEnv
    [("/music", some ["100%", "b.mp3"]), ("/music/100%", none), ("/music/b.mp3", none)]
    [] [("/music/100%", "audio"), ("/music/b.mp3", "audio")]

/-- An environment without any file, in which `Check` permits every path. -/
def emptyEnv : Env := treeEnv [] [] []

/-- The environment `musicEnv` with a client that disconnects after the header
line: every later write to the response fails (error 32). -/
def brokenPipeEnv : Env :=
  { musicEnv with sinkWrite := fun ws _ => if 1 ≤ ws.length then some (.ext 32) else none }

/-! ## Canonical rooted paths (used to state and prove the resolver theorems) -/

/-- A proper path element: non-empty, without a slash, neither `.` nor `..`. -/
def IsElem (s : List Char) : Prop :=
  s ≠ [] ∧ '/' ∉ s ∧ s ≠ ['.'] ∧ s ≠ ['.', '.']

/-- Elements joined by single slashes. -/
def joinSlash : List (List Char) → List Char
  | [] => []
  | [s] => s
  | s :: t :: r => s ++ '/' :: joinSlash (t :: r)

/-- The rooted path with the given elements: `/e1/e2/.../en`, `/` for none. -/
def rootedPath (segs : List (List Char)) : List Char := '/' :: joinSlash segs

/-- The output buffer of `path.Clean` (in reverse) that holds the rooted path
with the given elements, last element first. -/
def rootedBuf : List (List Char) → List Char
  | [] => ['/']
  | [s] => s.reverse ++ ['/']
  | s :: t :: r => s.reverse ++ '/' :: rootedBuf (t :: r)

/-- A path is canonical and absolute: it starts with `/` and `path.Clean` leaves it unchanged. -/
def IsCanonicalAbs (p : GoString) : Prop := p.head? = some '/' ∧ Clean p = p

/-- The elements of a slash-separated path (`strings.Split(p, "/")`). -/
def segments (p : GoString) : List GoString := p.splitOn '/'

/-- The format tokens of the specification (section 4.3), each with its file
extension and codec: `zip` (also for `true` and the empty string), `tar`, `targz`,
`tarbz2`, `tarxz`, `tarlz4`, `tarsz`. -/
def formatTable : List (String × String × Codec) :=
  [("zip", ".zip", .Zip), ("true", ".zip", .Zip), ("", ".zip", .Zip),
   ("tar", ".tar", .Tar), ("targz", ".tar.gz", .TarGz), ("tarbz2", ".tar.bz2", .TarBz2),
   ("tarxz", ".tar.xz", .TarXz), ("tarlz4", ".tar.lz4", .TarLz4), ("tarsz", ".tar.sz", .TarSz)]

/-! # Theorems -/

/-! ## Facts about `path.Clean` -/

theorem cleanLoop_fuel (rooted : Bool) :
    ∀ (f1 f2 : Nat) (path out : List Char) (dotdot : Nat),
      path.length ≤ f1 → path.length ≤ f2 →
      cleanLoop rooted f1 path out dotdot = cleanLoop rooted f2 path out dotdot := by
  intro f1
  induction f1 with
  | zero =>
    intro f2 path out dotdot h1 _
    have hp : path = [] := List.length_eq_zero.mp (Nat.le_zero.mp h1)
    subst hp
    cases f2 <;> simp [cleanLoop]
  | succ f1 ih =>
    intro f2 path out dotdot h1 h2
    cases path with
    | nil => cases f2 <;> simp [cleanLoop]
    | cons c rest =>
      cases f2 with
      | zero => simp at h2
      | succ f2 =>
        simp only [List.length_cons, Nat.add_le_add_iff_right] at h1 h2
        have htail : rest.tail.length ≤ rest.length := by simp
        have hdrop : c ≠ '/' → ((c :: rest).dropWhile (· ≠ '/')).length ≤ rest.length := by
          intro hc
          have : (c :: rest).dropWhile (· ≠ '/') = rest.dropWhile (· ≠ '/') := by
            simp [List.dropWhile, hc]
          rw [this]
          exact (List.dropWhile_sublist _).length_le
        simp only [cleanLoop]
        split_ifs
        all_goals first
          | exact ih _ _ _ _ h1 h2
          | exact ih _ _ _ _ (le_trans htail h1) (le_trans htail h2)
          | exact ih _ _ _ _ (le_trans (hdrop ‹_›) h1) (le_trans (hdrop ‹_›) h2)

theorem backtrack_elem_slash (l Y : List Char) (hl : l ≠ []) (hs : '/' ∉ l) (hY : 1 ≤ Y.length) :
    backtrack 1 (l ++ '/' :: Y) = Y := by
  induction l with
  | nil => exact absurd rfl hl
  | cons c l ih =>
    have hc : c ≠ '/' := fun h => hs (by simp [h])
    cases l with
    | nil =>
      have h1 : 1 < (('/' : Char) :: Y).length := by
        simp only [List.length_cons]; omega
      show backtrack 1 (c :: '/' :: Y) = Y
      rw [backtrack, if_pos ⟨h1, hc⟩, backtrack, if_neg (fun h => h.2 rfl)]
    | cons c2 l2 =>
      have hs2 : '/' ∉ c2 :: l2 := fun h => hs (List.mem_cons_of_mem _ h)
      have h1 : 1 < (c2 :: l2 ++ '/' :: Y).length := by simp
      show backtrack 1 (c :: (c2 :: l2 ++ '/' :: Y)) = Y
      rw [backtrack, if_pos ⟨h1, hc⟩]
      exact ih (by simp) hs2

theorem backtrack_elem_root (l : List Char) (hl : l ≠ []) (hs : '/' ∉ l) :
    backtrack 1 (l ++ ['/']) = ['/'] := by
  induction l with
  | nil => exact absurd rfl hl
  | cons c l ih =>
    have hc : c ≠ '/' := fun h => hs (by simp [h])
    cases l with
    | nil => simp [backtrack]
    | cons c2 l2 =>
      have hs2 : '/' ∉ c2 :: l2 := fun h => hs (List.mem_cons_of_mem _ h)
      have h1 : 1 < (c2 :: l2 ++ ['/']).length := by simp
      show backtrack 1 (c :: (c2 :: l2 ++ ['/'])) = ['/']
      rw [backtrack, if_pos ⟨h1, hc⟩]
      exact ih (by simp) hs2

theorem rootedBuf_length_pos (ss : List (List Char)) : 1 ≤ (rootedBuf ss).length := by
  match ss with
  | [] => simp [rootedBuf]
  | [s] => simp [rootedBuf]
  | s :: t :: r => simp [rootedBuf]; omega

theorem rootedBuf_length_cons (s : List Char) (ss : List (List Char)) (hs : s ≠ []) :
    1 < (rootedBuf (s :: ss)).length := by
  have hpos : 0 < s.length := List.length_pos.mpr hs
  cases ss with
  | nil => simp [rootedBuf]; omega
  | cons t r => simp [rootedBuf]; omega

theorem backtrack_rootedBuf (s : List Char) (ss : List (List Char)) (hs : IsElem s) :
    backtrack 1 (rootedBuf (s :: ss)) = rootedBuf ss := by
  have hne : s.reverse ≠ [] := by simpa using hs.1
  have hsl : '/' ∉ s.reverse := by simpa using hs.2.1
  cases ss with
  | nil => simpa [rootedBuf] using backtrack_elem_root s.reverse hne hsl
  | cons t r =>
    simpa [rootedBuf] using
      backtrack_elem_slash s.reverse (rootedBuf (t :: r)) hne hsl (rootedBuf_length_pos _)

theorem rootedBuf_push (s : List Char) (ss : List (List Char))
    (hss : ∀ t ∈ ss, IsElem t) :
    s.reverse ++ (if (rootedBuf ss).length ≠ 1 then '/' :: rootedBuf ss else rootedBuf ss)
      = rootedBuf (s :: ss) := by
  cases ss with
  | nil => simp [rootedBuf]
  | cons t r =>
    have h := rootedBuf_length_cons t r (hss t (by simp)).1
    rw [if_pos (by omega)]
    simp [rootedBuf]

theorem takeWhile_notSlash_eq_nil (l : List Char) (h : l.takeWhile (· ≠ '/') = []) :
    l = [] ∨ l.head? = some '/' := by
  cases l with
  | nil => exact Or.inl rfl
  | cons a t =>
    right
    by_cases ha : a = '/'
    · simp [ha]
    · simp [List.takeWhile, ha] at h

theorem isElem_takeWhile (c : Char) (rest : List Char) (h1 : c ≠ '/')
    (h2 : ¬ (c = '.' ∧ (rest = [] ∨ rest.head? = some '/')))
    (h3 : ¬ (c = '.' ∧ rest.head? = some '.' ∧ (rest.tail = [] ∨ rest.tail.head? = some '/'))) :
    IsElem ((c :: rest).takeWhile (· ≠ '/')) := by
  have hcons : (c :: rest).takeWhile (· ≠ '/') = c :: rest.takeWhile (· ≠ '/') := by
    simp [List.takeWhile, h1]
  rw [hcons]
  refine ⟨by simp, ?_, ?_, ?_⟩
  · intro hmem
    rcases List.mem_cons.mp hmem with h | h
    · exact h1 h.symm
    · have := List.mem_takeWhile_imp h
      simp at this
  · intro h
    injection h with hc ht
    exact h2 ⟨hc, takeWhile_notSlash_eq_nil rest ht⟩
  · intro h
    injection h with hc ht
    cases rest with
    | nil => simp at ht
    | cons a t =>
      by_cases ha : a = '/'
      · simp [List.takeWhile, ha] at ht
      · have ht2 : a :: t.takeWhile (· ≠ '/') = ['.'] := by
          simpa [List.takeWhile, ha] using ht
        injection ht2 with ha2 ht3
        exact h3 ⟨hc, by simp [ha2], by simpa using takeWhile_notSlash_eq_nil t ht3⟩

theorem cleanLoop_rooted_canonical :
    ∀ (fuel : Nat) (path : List Char) (ss : List (List Char)),
      (∀ s ∈ ss, IsElem s) →
      ∃ ss2, (∀ s ∈ ss2, IsElem s) ∧
        cleanLoop true fuel path (rootedBuf ss) 1 = rootedBuf ss2 := by
  intro fuel
  induction fuel with
  | zero => intro path ss hss; exact ⟨ss, hss, by simp [cleanLoop]⟩
  | succ fuel ih =>
    intro path ss hss
    cases path with
    | nil => exact ⟨ss, hss, by simp [cleanLoop]⟩
    | cons c rest =>
      simp only [cleanLoop]
      by_cases h1 : c = '/'
      · rw [if_pos h1]; exact ih rest ss hss
      · rw [if_neg h1]
        by_cases h2 : c = '.' ∧ (rest = [] ∨ rest.head? = some '/')
        · rw [if_pos h2]; exact ih rest ss hss
        · rw [if_neg h2]
          by_cases h3 : c = '.' ∧ rest.head? = some '.' ∧
              (rest.tail = [] ∨ rest.tail.head? = some '/')
          · rw [if_pos h3]
            by_cases h4 : 1 < (rootedBuf ss).length
            · rw [if_pos h4]
              cases ss with
              | nil => simp [rootedBuf] at h4
              | cons s ss1 =>
                rw [backtrack_rootedBuf s ss1 (hss s (by simp))]
                exact ih _ ss1 (fun t ht => hss t (List.mem_cons_of_mem _ ht))
            · rw [if_neg h4]
              simp only [Bool.not_true, Bool.false_eq_true, if_false]
              exact ih _ ss hss
          · rw [if_neg h3]
            have hel := isElem_takeWhile c rest h1 h2 h3
            have hpush := rootedBuf_push ((c :: rest).takeWhile (· ≠ '/')) ss hss
            simp only [true_and, not_true_eq_false, false_and, or_false]
            rw [hpush]
            refine ih _ _ ?_
            intro t ht
            rcases List.mem_cons.mp ht with h | h
            · rw [h]; exact hel
            · exact hss t h

theorem tw_cons_ne (a : Char) (l : List Char) (h : a ≠ '/') :
    (a :: l).takeWhile (· ≠ '/') = a :: l.takeWhile (· ≠ '/') :=
  List.takeWhile_cons_of_pos (by simpa using h)

theorem dw_cons_ne (a : Char) (l : List Char) (h : a ≠ '/') :
    (a :: l).dropWhile (· ≠ '/') = l.dropWhile (· ≠ '/') :=
  List.dropWhile_cons_of_pos (by simpa using h)

theorem tw_cons_slash (l : List Char) : (('/' : Char) :: l).takeWhile (· ≠ '/') = [] :=
  List.takeWhile_cons_of_neg (by simp)

theorem dw_cons_slash (l : List Char) : (('/' : Char) :: l).dropWhile (· ≠ '/') = '/' :: l :=
  List.dropWhile_cons_of_neg (by simp)

theorem takeWhile_notSlash_of_head (l : List Char) (h : l = [] ∨ l.head? = some '/') :
    l.takeWhile (· ≠ '/') = [] ∧ l.dropWhile (· ≠ '/') = l := by
  cases l with
  | nil => simp
  | cons a t =>
    have ha : a = '/' := by simpa using h
    subst ha
    exact ⟨tw_cons_slash t, dw_cons_slash t⟩

theorem takeWhile_elem_append (s tail : List Char) (hs : '/' ∉ s)
    (ht : tail = [] ∨ tail.head? = some '/') :
    (s ++ tail).takeWhile (· ≠ '/') = s ∧ (s ++ tail).dropWhile (· ≠ '/') = tail := by
  induction s with
  | nil => simpa using takeWhile_notSlash_of_head tail ht
  | cons a t ih =>
    have ha : a ≠ '/' := fun h => hs (by simp [h])
    have ht2 : '/' ∉ t := fun h => hs (List.mem_cons_of_mem _ h)
    obtain ⟨h1, h2⟩ := ih ht2
    constructor
    · show (a :: (t ++ tail)).takeWhile (· ≠ '/') = a :: t
      rw [tw_cons_ne a _ ha, h1]
    · show (a :: (t ++ tail)).dropWhile (· ≠ '/') = tail
      rw [dw_cons_ne a _ ha, h2]

theorem cleanLoop_elem (s tail : List Char) (ss : List (List Char)) (fuel : Nat)
    (hs : IsElem s) (ht : tail = [] ∨ tail.head? = some '/')
    (hss : ∀ t ∈ ss, IsElem t) (hf : (s ++ tail).length ≤ fuel) :
    cleanLoop true fuel (s ++ tail) (rootedBuf ss) 1
      = cleanLoop true tail.length tail (rootedBuf (s :: ss)) 1 := by
  obtain ⟨hne, hsl, hdot, hdd⟩ := hs
  obtain ⟨htw, hdw⟩ := takeWhile_elem_append s tail hsl ht
  cases s with
  | nil => exact absurd rfl hne
  | cons c r =>
    cases fuel with
    | zero => simp at hf
    | succ fuel =>
      have h1 : c ≠ '/' := fun h => hsl (by simp [h])
      have htw2 : (c :: (r ++ tail)).takeWhile (· ≠ '/') = c :: r := htw
      have hdw2 : (c :: (r ++ tail)).dropWhile (· ≠ '/') = tail := hdw
      have h2 : ¬ (c = '.' ∧ (r ++ tail = [] ∨ (r ++ tail).head? = some '/')) := by
        intro h
        have := (takeWhile_notSlash_of_head (r ++ tail) h.2).1
        have hcr : (c :: (r ++ tail)).takeWhile (· ≠ '/') = ['.'] := by
          rw [tw_cons_ne c _ h1, this, h.1]
        rw [htw2] at hcr
        exact hdot hcr
      have h3 : ¬ (c = '.' ∧ (r ++ tail).head? = some '.' ∧
          ((r ++ tail).tail = [] ∨ (r ++ tail).tail.head? = some '/')) := by
        intro h
        obtain ⟨hc, hhd, htl⟩ := h
        cases hrt : r ++ tail with
        | nil => rw [hrt] at hhd; simp at hhd
        | cons a t =>
          rw [hrt] at hhd htl
          have ha : a = '.' := by simpa using hhd
          have := (takeWhile_notSlash_of_head t (by simpa using htl)).1
          have hcr : (c :: (r ++ tail)).takeWhile (· ≠ '/') = ['.', '.'] := by
            rw [hrt, tw_cons_ne c _ h1, tw_cons_ne a _ (by rw [ha]; decide), this, hc, ha]
          rw [htw2] at hcr
          exact hdd hcr
      show cleanLoop true (fuel + 1) (c :: (r ++ tail)) (rootedBuf ss) 1 = _
      simp only [cleanLoop]
      rw [if_neg h1, if_neg h2, if_neg h3, htw2, hdw2]
      simp only [true_and, not_true_eq_false, false_and, or_false]
      rw [rootedBuf_push (c :: r) ss hss]
      refine cleanLoop_fuel true _ _ _ _ _ ?_ (le_refl _)
      simp only [List.length_append, List.length_cons] at hf
      omega

theorem cleanLoop_slash (rest out : List Char) (fuel dotdot : Nat) (rooted : Bool)
    (hf : rest.length + 1 ≤ fuel) :
    cleanLoop rooted fuel ('/' :: rest) out dotdot
      = cleanLoop rooted rest.length rest out dotdot := by
  cases fuel with
  | zero => simp at hf
  | succ fuel =>
    simp only [cleanLoop, if_true]
    exact cleanLoop_fuel rooted _ _ _ _ _ (by omega) (le_refl _)

theorem cleanLoop_joinSlash (items : List (List Char)) :
    ∀ (tail : List Char) (ss : List (List Char)),
      (∀ s ∈ items, IsElem s) → (tail = [] ∨ tail.head? = some '/') →
      (∀ t ∈ ss, IsElem t) →
      cleanLoop true (joinSlash items ++ tail).length (joinSlash items ++ tail) (rootedBuf ss) 1
        = cleanLoop true tail.length tail (rootedBuf (items.reverse ++ ss)) 1 := by
  induction items with
  | nil => intro tail ss _ _ _; simp [joinSlash]
  | cons s r ih =>
    intro tail ss hit ht hss
    have hs : IsElem s := hit s (by simp)
    have hr : ∀ t ∈ r, IsElem t := fun t h => hit t (List.mem_cons_of_mem _ h)
    have hss2 : ∀ t ∈ s :: ss, IsElem t := by
      intro t h
      rcases List.mem_cons.mp h with h | h
      · rw [h]; exact hs
      · exact hss t h
    cases r with
    | nil =>
      simp only [joinSlash, List.reverse_cons, List.reverse_nil, List.nil_append,
        List.singleton_append]
      exact cleanLoop_elem s tail ss _ hs ht hss (le_refl _)
    | cons t r2 =>
      have hjoin : joinSlash (s :: t :: r2) ++ tail
          = s ++ ('/' :: (joinSlash (t :: r2) ++ tail)) := by
        simp [joinSlash]
      rw [hjoin, cleanLoop_elem s ('/' :: (joinSlash (t :: r2) ++ tail)) ss _ hs
        (Or.inr (by simp)) hss (le_refl _)]
      rw [cleanLoop_slash (joinSlash (t :: r2) ++ tail) _ _ _ _ (by simp),
        ih tail (s :: ss) hr ht hss2]
      simp

theorem joinSlash_append (xs ys : List (List Char)) (hx : xs ≠ []) (hy : ys ≠ []) :
    joinSlash (xs ++ ys) = joinSlash xs ++ '/' :: joinSlash ys := by
  induction xs with
  | nil => exact absurd rfl hx
  | cons s r ih =>
    cases r with
    | nil =>
      cases ys with
      | nil => exact absurd rfl hy
      | cons y ys2 => simp [joinSlash]
    | cons t r2 =>
      have h2 : joinSlash (t :: (r2 ++ ys)) = joinSlash (t :: r2) ++ '/' :: joinSlash ys :=
        ih (by simp)
      show s ++ '/' :: joinSlash (t :: (r2 ++ ys)) = _
      rw [h2]
      simp [joinSlash]

theorem rootedBuf_reverse (ss : List (List Char)) :
    (rootedBuf ss).reverse = rootedPath ss.reverse := by
  induction ss with
  | nil => simp [rootedBuf, rootedPath, joinSlash]
  | cons s r ih =>
    cases r with
    | nil => simp [rootedBuf, rootedPath, joinSlash]
    | cons t r2 =>
      have hj := joinSlash_append ((t :: r2).reverse) [s] (by simp) (by simp)
      simp only [rootedBuf, List.reverse_append, List.reverse_cons, List.reverse_reverse] at ih ⊢
      simp only [rootedPath, List.reverse_cons] at ih hj ⊢
      rw [ih, hj]
      simp [joinSlash]

theorem rootedBuf_ne_nil (ss : List (List Char)) : rootedBuf ss ≠ [] := by
  intro h
  have := rootedBuf_length_pos ss
  rw [h] at this
  simp at this

/-- Models `path.Clean` of a rooted path is a rooted path of proper elements. -/
theorem Clean_rooted (rest : List Char) :
    ∃ segs, (∀ s ∈ segs, IsElem s) ∧ Clean ('/' :: rest) = rootedPath segs := by
  obtain ⟨ss, hss, h⟩ := cleanLoop_rooted_canonical rest.length rest [] (by simp)
  refine ⟨ss.reverse, fun s hs => hss s (List.mem_reverse.mp hs), ?_⟩
  have h0 : rootedBuf [] = ['/'] := rfl
  rw [h0] at h
  simp only [Clean, if_true]
  rw [h, if_neg (rootedBuf_ne_nil ss), rootedBuf_reverse]

theorem canonicalAbs_rootedPath (b : GoString) (hb : IsCanonicalAbs b) :
    ∃ bs, (∀ s ∈ bs, IsElem s) ∧ b = rootedPath bs := by
  obtain ⟨hhead, hclean⟩ := hb
  cases b with
  | nil => simp at hhead
  | cons c rest =>
    have hc : c = '/' := by simpa using hhead
    subst hc
    obtain ⟨segs, hsegs, h⟩ := Clean_rooted rest
    exact ⟨segs, hsegs, hclean.symm.trans h⟩

/-- Cleaning the concatenation of two canonical rooted paths, as `filepath.Join` does. -/
theorem Clean_rootedPath_append (bs ns : List (List Char))
    (hbs : ∀ s ∈ bs, IsElem s) (hns : ∀ s ∈ ns, IsElem s) :
    Clean (rootedPath bs ++ '/' :: rootedPath ns) = rootedPath (bs ++ ns) := by
  have h0 : rootedBuf [] = ['/'] := rfl
  have hloop : cleanLoop true (joinSlash bs ++ '/' :: '/' :: joinSlash ns).length
      (joinSlash bs ++ '/' :: '/' :: joinSlash ns) ['/'] 1
      = rootedBuf (ns.reverse ++ bs.reverse) := by
    rw [← h0, cleanLoop_joinSlash bs _ [] hbs (Or.inr (by simp)) (by simp)]
    rw [cleanLoop_slash ('/' :: joinSlash ns) _ _ _ _ (by simp)]
    rw [cleanLoop_slash (joinSlash ns) _ _ _ _ (by simp)]
    have := cleanLoop_joinSlash ns [] (bs.reverse ++ []) hns (Or.inl rfl)
      (by intro t ht; exact hbs t (by simpa using ht))
    simp only [List.append_nil] at this ⊢
    rw [this]
    simp [cleanLoop]
  show Clean ('/' :: (joinSlash bs ++ '/' :: '/' :: joinSlash ns)) = _
  simp only [Clean, if_true]
  rw [hloop, if_neg (rootedBuf_ne_nil _), rootedBuf_reverse]
  simp

theorem rootedPath_append_prefix (bs ns : List (List Char)) :
    rootedPath (bs ++ ns) = rootedPath bs ∨
      (rootedPath bs ++ ['/']) <+: rootedPath (bs ++ ns) ∨
      (rootedPath bs = ['/'] ∧ ['/'] <+: rootedPath (bs ++ ns)) := by
  by_cases hn : ns = []
  · left; simp [hn]
  · by_cases hb : bs = []
    · right; right
      subst hb
      exact ⟨rfl, by simp [rootedPath]⟩
    · right; left
      refine ⟨joinSlash ns, ?_⟩
      simp only [rootedPath]
      rw [joinSlash_append bs ns hb hn]
      simp

theorem joinSlash_eq_intercalate (xs : List (List Char)) :
    joinSlash xs = ['/'].intercalate xs := by
  induction xs with
  | nil => simp [joinSlash, List.intercalate]
  | cons s r ih =>
    cases r with
    | nil => simp [joinSlash, List.intercalate]
    | cons t r2 =>
      simp only [joinSlash]
      rw [ih]
      simp [List.intercalate, List.intersperse]

theorem segments_rootedPath (segs : List (List Char)) (h : ∀ s ∈ segs, IsElem s) :
    segments (rootedPath segs) = if segs = [] then [[], []] else [] :: segs := by
  by_cases hs : segs = []
  · subst hs
    simp only [if_true]
    decide
  · rw [if_neg hs]
    have hrp : rootedPath segs = ['/'].intercalate ([] :: segs) := by
      cases segs with
      | nil => exact absurd rfl hs
      | cons s r =>
        rw [rootedPath, joinSlash_eq_intercalate]
        simp [List.intercalate, List.intersperse]
    rw [segments, hrp]
    apply List.splitOn_intercalate
    · intro l hl
      rcases List.mem_cons.mp hl with h1 | h1
      · simp [h1]
      · exact (h l h1).2.1
    · simp

theorem dotdot_not_mem_segments_rootedPath (segs : List (List Char))
    (h : ∀ s ∈ segs, IsElem s) : ['.', '.'] ∉ segments (rootedPath segs) := by
  rw [segments_rootedPath segs h]
  by_cases hs : segs = []
  · simp [hs]
  · rw [if_neg hs]
    intro hmem
    rcases List.mem_cons.mp hmem with h1 | h1
    · simp at h1
    · exact (h _ h1).2.2.2 rfl

theorem slashClean_rooted (name : GoString) :
    ∃ ns, (∀ s ∈ ns, IsElem s) ∧ slashClean name = rootedPath ns := by
  unfold slashClean
  by_cases h : name = [] ∨ name.head? ≠ some '/'
  · simp only [if_pos h]
    exact Clean_rooted name
  · simp only [if_neg h]
    cases name with
    | nil => simp at h
    | cons c rest =>
      have hc : c = '/' := by simpa using h
      subst hc
      exact Clean_rooted rest

theorem rootedPath_ne_nil (segs : List (List Char)) : rootedPath segs ≠ [] := by
  simp [rootedPath]

/-- One resolved path: the base elements followed by the elements of the cleaned name. -/
theorem filepathJoin_slashClean (b name : GoString) (hb : IsCanonicalAbs b) :
    ∃ bs ns, (∀ s ∈ bs, IsElem s) ∧ (∀ s ∈ ns, IsElem s) ∧ b = rootedPath bs ∧
      filepathJoin b (slashClean name) = rootedPath (bs ++ ns) := by
  obtain ⟨bs, hbs, hbeq⟩ := canonicalAbs_rootedPath b hb
  obtain ⟨ns, hns, hneq⟩ := slashClean_rooted name
  refine ⟨bs, ns, hbs, hns, hbeq, ?_⟩
  rw [hneq, hbeq]
  unfold filepathJoin
  rw [if_pos (rootedPath_ne_nil bs)]
  exact Clean_rootedPath_append bs ns hbs hns

theorem resolveNames_mem (fPath : GoString) :
    ∀ (names paths : List GoString), resolveNames fPath names = .ok paths →
      ∀ p ∈ paths, ∃ name, p = filepathJoin fPath (slashClean name) := by
  intro names
  induction names with
  | nil =>
    intro paths h p hp
    simp only [resolveNames] at h
    injection h with h
    subst h
    simp at hp
  | cons n ns ih =>
    intro paths h p hp
    simp only [resolveNames] at h
    split at h
    · exact absurd h (by simp)
    · rename_i name1 _
      split at h
      · exact absurd h (by simp)
      · rename_i fileSlice hrec
        injection h with h
        subst h
        rcases List.mem_cons.mp hp with h1 | h1
        · exact ⟨name1, h1⟩
        · exact ih fileSlice hrec p h1

theorem parseQueryFiles_mem (files fPath : GoString) (paths : List GoString)
    (h : parseQueryFiles files fPath = .ok paths) :
    ∀ p ∈ paths, ∃ name, p = filepathJoin fPath (slashClean name) := by
  unfold parseQueryFiles at h
  simp only at h
  split at h
  · rename_i hlen
    have hne : splitComma files ≠ [] := by
      unfold splitComma List.splitOn
      exact List.splitOnP_ne_nil _ _
    exact absurd (List.length_eq_zero.mp hlen) hne
  · exact resolveNames_mem fPath _ paths h

theorem tw_append_slash (l : List Char) :
    (l ++ ['/']).takeWhile (· ≠ '/') = l.takeWhile (· ≠ '/') ∧
    (l ++ ['/']).dropWhile (· ≠ '/') = l.dropWhile (· ≠ '/') ++ ['/'] := by
  induction l with
  | nil => exact ⟨tw_cons_slash [], dw_cons_slash []⟩
  | cons a t ih =>
    by_cases ha : a = '/'
    · subst ha
      exact ⟨by rw [List.cons_append, tw_cons_slash, tw_cons_slash],
        by rw [List.cons_append, dw_cons_slash, dw_cons_slash]; rfl⟩
    · exact ⟨by rw [List.cons_append, tw_cons_ne a _ ha, tw_cons_ne a _ ha, ih.1],
        by rw [List.cons_append, dw_cons_ne a _ ha, dw_cons_ne a _ ha, ih.2]⟩

theorem head_append_slash (l : List Char) :
    (l ++ ['/'] = [] ∨ (l ++ ['/']).head? = some '/') ↔ (l = [] ∨ l.head? = some '/') := by
  cases l with
  | nil => simp
  | cons a t => simp

/-- A trailing slash does not change what the loop of `path.Clean` computes. -/
theorem cleanLoop_append_slash (rooted : Bool) :
    ∀ (f : Nat) (path out : List Char) (dotdot : Nat), path.length ≤ f →
      cleanLoop rooted (f + 1) (path ++ ['/']) out dotdot = cleanLoop rooted f path out dotdot := by
  intro f
  induction f with
  | zero =>
    intro path out dotdot h
    have hp : path = [] := List.length_eq_zero.mp (Nat.le_zero.mp h)
    subst hp
    simp [cleanLoop]
  | succ f ih =>
    intro path out dotdot h
    cases path with
    | nil => simp [cleanLoop]
    | cons c rest =>
      simp only [List.length_cons, Nat.add_le_add_iff_right] at h
      have htail : rest.tail.length ≤ f := le_trans (by simp) h
      show cleanLoop rooted (f + 1 + 1) (c :: (rest ++ ['/'])) out dotdot = _
      have hc2 : (rest ++ ['/'] = [] ∨ (rest ++ ['/']).head? = some '/') ↔
          (rest = [] ∨ rest.head? = some '/') := head_append_slash rest
      have hc3 : ((rest ++ ['/']).head? = some '.' ∧
            ((rest ++ ['/']).tail = [] ∨ (rest ++ ['/']).tail.head? = some '/')) ↔
          (rest.head? = some '.' ∧ (rest.tail = [] ∨ rest.tail.head? = some '/')) := by
        cases rest with
        | nil => simp
        | cons a t =>
          have := head_append_slash t
          simpa using fun _ => this
      have htl : rest.head? = some '.' → (rest ++ ['/']).tail = rest.tail ++ ['/'] := by
        cases rest with
        | nil => simp
        | cons a t => simp
      simp only [cleanLoop]
      by_cases h1 : c = '/'
      · rw [if_pos h1, if_pos h1]; exact ih _ _ _ h
      · rw [if_neg h1, if_neg h1]
        by_cases h2 : c = '.' ∧ (rest = [] ∨ rest.head? = some '/')
        · rw [if_pos h2, if_pos ⟨h2.1, hc2.mpr h2.2⟩]; exact ih _ _ _ h
        · rw [if_neg h2, if_neg (fun hh => h2 ⟨hh.1, hc2.mp hh.2⟩)]
          by_cases h3 : c = '.' ∧ rest.head? = some '.' ∧
              (rest.tail = [] ∨ rest.tail.head? = some '/')
          · rw [if_pos h3, if_pos ⟨h3.1, hc3.mpr h3.2⟩, htl h3.2.1]
            split_ifs <;> exact ih _ _ _ htail
          · rw [if_neg h3, if_neg (fun hh => h3 ⟨hh.1, hc3.mp hh.2⟩)]
            have htw := tw_append_slash (c :: rest)
            have hdw : ((c :: rest).dropWhile (· ≠ '/')).length ≤ f := by
              rw [dw_cons_ne c rest h1]
              exact le_trans (List.dropWhile_sublist _).length_le h
            have e1 : (c :: (rest ++ ['/'])).takeWhile (· ≠ '/')
                = (c :: rest).takeWhile (· ≠ '/') := htw.1
            have e2 : (c :: (rest ++ ['/'])).dropWhile (· ≠ '/')
                = (c :: rest).dropWhile (· ≠ '/') ++ ['/'] := htw.2
            rw [e1, e2]
            exact ih _ _ _ hdw

theorem Clean_append_slash (p : GoString) (hp : p ≠ []) : Clean (p ++ ['/']) = Clean p := by
  cases p with
  | nil => exact absurd rfl hp
  | cons c rest =>
    show Clean (c :: (rest ++ ['/'])) = Clean (c :: rest)
    simp only [Clean]
    by_cases h : c = '/'
    · simp only [if_pos h]
      have := cleanLoop_append_slash true rest.length rest ['/'] 1 (le_refl _)
      rw [List.length_append, List.length_singleton, this]
    · simp only [if_neg h]
      have := cleanLoop_append_slash false (c :: rest).length (c :: rest) [] 0 (le_refl _)
      have e : (c :: (rest ++ ['/'])).length = (c :: rest).length + 1 := by simp
      rw [e]
      exact congrArg (fun o => if o = [] then ['.'] else o.reverse) this

theorem resolveNames_ok (fPath : GoString) :
    ∀ names : List GoString, (∀ t ∈ names, (QueryUnescape (replacePlus t)).isOk = true) →
      ∃ paths, resolveNames fPath names = .ok paths ∧ paths.length = names.length := by
  intro names
  induction names with
  | nil => intro _; exact ⟨[], rfl, rfl⟩
  | cons n ns ih =>
    intro h
    obtain ⟨paths, hp, hlen⟩ := ih (fun t ht => h t (List.mem_cons_of_mem _ ht))
    have hn := h n (by simp)
    cases hq : QueryUnescape (replacePlus n) with
    | error e => rw [hq] at hn; simp [Except.isOk, Except.toBool] at hn
    | ok name1 =>
      refine ⟨filepathJoin fPath (slashClean name1) :: paths, ?_, by simp [hlen]⟩
      simp only [resolveNames, hq, hp]

/-! ## The resolver: `parseQueryFiles` -/

/-- C8: for every base directory that `path.Clean` leaves unchanged, `parseQueryFiles`
with an absent or empty `files` parameter returns no error and exactly the
one-element list holding the base directory. -/
theorem parseQueryFiles_empty (b : GoString) (hb : Clean b = b) :
    parseQueryFiles [] b = .ok [b] := by
  have hne : b ≠ [] := by
    intro h
    rw [h] at hb
    exact absurd hb (by decide)
  have hsc : slashClean [] = ['/'] := by decide
  have hjoin : filepathJoin b ['/'] = b := by
    unfold filepathJoin
    rw [if_pos hne]
    have e : b ++ ['/', '/'] = (b ++ ['/']) ++ ['/'] := by simp
    rw [e, Clean_append_slash _ (by simp), Clean_append_slash _ hne, hb]
  have hsplit : splitComma [] = [[]] := List.splitOn_nil ','
  unfold parseQueryFiles
  simp only [hsplit, List.length_singleton, one_ne_zero, if_false]
  have hq : QueryUnescape (replacePlus []) = .ok [] := by decide
  simp only [resolveNames, hq, hsc, hjoin]

theorem parseQueryFiles_empty_witness :
    Clean "/srv/data".toList = "/srv/data".toList ∧
      parseQueryFiles [] "/srv/data".toList = .ok ["/srv/data".toList] :=
  ⟨by decide, parseQueryFiles_empty "/srv/data".toList (by decide)⟩

/-- C10: for every canonical absolute base directory `b` and every `files` value
whose tokens all percent-decode, `parseQueryFiles` returns one path per token, and
each path is `b` itself or starts with `b` followed by `/` (for `b = /`, it starts
with `/`): no token resolves outside the base directory. -/
theorem parseQueryFiles_within_base (b files : GoString) (hb : IsCanonicalAbs b)
    (hdec : ∀ t ∈ splitComma files, (QueryUnescape (replacePlus t)).isOk = true) :
    ∃ paths, parseQueryFiles files b = .ok paths ∧
      paths.length = (splitComma files).length ∧
      ∀ p ∈ paths, p = b ∨ (b ++ ['/']) <+: p ∨ (b = ['/'] ∧ ['/'] <+: p) := by
  obtain ⟨paths, hp, hlen⟩ := resolveNames_ok b (splitComma files) hdec
  have hpq : parseQueryFiles files b = .ok paths := by
    unfold parseQueryFiles
    have hne : (splitComma files).length ≠ 0 := by
      intro h
      exact List.splitOnP_ne_nil _ _ (List.length_eq_zero.mp h)
    simp only [if_neg hne]
    exact hp
  refine ⟨paths, hpq, hlen, ?_⟩
  intro p hpm
  obtain ⟨name, hname⟩ := parseQueryFiles_mem files b paths hpq p hpm
  obtain ⟨bs, ns, _, _, hbeq, hj⟩ := filepathJoin_slashClean b name hb
  rw [hname, hj, hbeq]
  exact rootedPath_append_prefix bs ns

theorem parseQueryFiles_within_base_witness :
    IsCanonicalAbs "/srv".toList ∧
      ∃ paths, parseQueryFiles "a%2Fb,../../etc,c+d/./e".toList "/srv".toList = .ok paths ∧
        paths.length = (splitComma "a%2Fb,../../etc,c+d/./e".toList).length ∧
        ∀ p ∈ paths, p = "/srv".toList ∨ ("/srv".toList ++ ['/']) <+: p ∨
          ("/srv".toList = ['/'] ∧ ['/'] <+: p) :=
  ⟨⟨by decide, by decide⟩,
    parseQueryFiles_within_base "/srv".toList "a%2Fb,../../etc,c+d/./e".toList
      ⟨by decide, by decide⟩ (by decide)⟩

/-- For every canonical absolute base directory and every `files` value whose
tokens all percent-decode, `parseQueryFiles` returns one path per token, and each
path begins with `/` and has no `..` element.  (A backslash is an ordinary byte
to `parseQueryFiles`.) -/
theorem parseQueryFiles_canonical (b files : GoString) (hb : IsCanonicalAbs b)
    (hdec : ∀ t ∈ splitComma files, (QueryUnescape (replacePlus t)).isOk = true) :
    ∃ paths, parseQueryFiles files b = .ok paths ∧
      paths.length = (splitComma files).length ∧
      ∀ p ∈ paths, p.head? = some '/' ∧ ['.', '.'] ∉ segments p := by
  obtain ⟨paths, hp, hlen⟩ := resolveNames_ok b (splitComma files) hdec
  have hpq : parseQueryFiles files b = .ok paths := by
    unfold parseQueryFiles
    have hne : (splitComma files).length ≠ 0 := by
      intro h
      exact List.splitOnP_ne_nil _ _ (List.length_eq_zero.mp h)
    simp only [if_neg hne]
    exact hp
  refine ⟨paths, hpq, hlen, ?_⟩
  intro p hpm
  obtain ⟨name, hname⟩ := parseQueryFiles_mem files b paths hpq p hpm
  obtain ⟨bs, ns, hbs, hns, _, hj⟩ := filepathJoin_slashClean b name hb
  rw [hname, hj]
  refine ⟨rfl, dotdot_not_mem_segments_rootedPath _ ?_⟩
  intro s hs
  rcases List.mem_append.mp hs with h | h
  · exact hbs s h
  · exact hns s h

theorem parseQueryFiles_canonical_witness :
    IsCanonicalAbs "/srv".toList ∧
      ∃ paths, parseQueryFiles "x/../../y,a%5Cb".toList "/srv".toList = .ok paths ∧
        paths.length = (splitComma "x/../../y,a%5Cb".toList).length ∧
        ∀ p ∈ paths, p.head? = some '/' ∧ ['.', '.'] ∉ segments p :=
  ⟨⟨by decide, by decide⟩,
    parseQueryFiles_canonical "/srv".toList "x/../../y,a%5Cb".toList
      ⟨by decide, by decide⟩ (by decide)⟩

/-! ## The format selector: `parseQueryAlgorithm` -/

/-- C7: `parseQueryAlgorithm` has no error exactly for the nine listed tokens, for
which it returns the extension and codec of `formatTable`; for every other token
(matching is exact and case-sensitive; `m3u`, `bogus` and `ZIP` are such tokens)
it returns the error, the empty extension and no writer. -/
theorem parseQueryAlgorithm_spec (algo : String) :
    ((parseQueryAlgorithm algo).2.2 = none ↔
      algo ∈ ["zip", "true", "", "tar", "targz", "tarbz2", "tarxz", "tarlz4", "tarsz"]) ∧
    parseQueryAlgorithm algo =
      (match formatTable.lookup algo with
       | some (ext, codec) => (ext, some codec, none)
       | none => ("", none, some (.errorString "format not implemented"))) ∧
    formatTable.map Prod.fst =
      ["zip", "true", "", "tar", "targz", "tarbz2", "tarxz", "tarlz4", "tarsz"] ∧
    formatTable.map (fun e => e.2.1) =
      [".zip", ".zip", ".zip", ".tar", ".tar.gz", ".tar.bz2", ".tar.xz", ".tar.lz4", ".tar.sz"] ∧
    parseQueryAlgorithm "m3u" = ("", none, some (.errorString "format not implemented")) ∧
    parseQueryAlgorithm "bogus" = ("", none, some (.errorString "format not implemented")) ∧
    parseQueryAlgorithm "ZIP" = ("", none, some (.errorString "format not implemented")) := by
  refine ⟨?_, ?_, by decide, by decide, by decide, by decide, by decide⟩
  · unfold parseQueryAlgorithm
    split_ifs with h1 h2 h3 h4 h5 h6 h7
    · rcases h1 with h | h | h <;> simp [h]
    all_goals simp_all
  · unfold parseQueryAlgorithm
    split_ifs with h1 h2 h3 h4 h5 h6 h7
    · rcases h1 with h | h | h <;> subst h <;> decide
    · subst h2; decide
    · subst h3; decide
    · subst h4; decide
    · subst h5; decide
    · subst h6; decide
    · subst h7; decide
    · have hk : ∀ k : String, algo ≠ k → (algo == k) = false := fun k hk => by simpa using hk
      simp only [not_or] at h1
      simp [formatTable, List.lookup, hk _ h1.1, hk _ h1.2.1, hk _ h1.2.2, hk _ h2, hk _ h3,
        hk _ h4, hk _ h5, hk _ h6, hk _ h7]

/-! ## Facts about the archive exporter -/

theorem statPaths_append (a b : List FsCall) :
    statPaths (a ++ b) = statPaths a ++ statPaths b := by
  induction a with
  | nil => rfl
  | cons c cs ih => cases c <;> simp [statPaths, ih]

theorem archiveRun_refl (env : Env) (base : GoString) (w : World) (r : Ret)
    (hr : ∀ e, r ≠ .err e) : ArchiveRun env base w w r := by
  refine ⟨[], [], by simp, by simp, by simp, fun _ => rfl, ?_⟩
  intro e he
  exact absurd he (hr e)

theorem archiveRun_trans (env : Env) (base : GoString) (w w1 w2 : World) (r : Ret)
    (h1 : ArchiveRun env base w w1 .nil) (h2 : ArchiveRun env base w1 w2 r) :
    ArchiveRun env base w w2 r := by
  obtain ⟨c1, n1, e1, hc1, hn1, hnil1, _⟩ := h1
  obtain ⟨c2, n2, e2, hc2, hn2, hnil2, herr2⟩ := h2
  have hs1 := hnil1 rfl
  refine ⟨c1 ++ c2, n1 ++ n2, ?_, ?_, ?_, ?_, ?_⟩
  · rw [e2, e1]; simp
  · intro c hc
    rcases List.mem_append.mp hc with h | h
    · exact hc1 c h
    · exact hc2 c h
  · intro e he
    rcases List.mem_append.mp he with h | h
    · exact hn1 e h
    · exact hn2 e h
  · intro hr
    rw [statPaths_append, hs1, hnil2 hr]; simp
  · intro err hr
    rcases herr2 err hr with ⟨hs, q, hq⟩ | ⟨q, hs, hq⟩
    · left
      refine ⟨by rw [statPaths_append, hs1, hs]; simp, q, ?_⟩
      have hne : c2 ≠ [] := by intro h; rw [h] at hq; simp at hq
      rw [List.getLast?_append_of_ne_nil _ hne]; exact hq
    · right
      refine ⟨q, by rw [statPaths_append, hs1, hs]; simp, ?_⟩
      have hne : c2 ≠ [] := by intro h; rw [h] at hq; simp at hq
      rw [List.getLast?_append_of_ne_nil _ hne]; exact hq

theorem forEach_archiveRun (env : Env) (base : GoString)
    (f : GoString → World → World × Ret)
    (hf : ∀ x w, ArchiveRun env base w (f x w).1 (f x w).2) :
    ∀ (xs : List GoString) (w : World),
      ArchiveRun env base w (forEach f xs w).1 (forEach f xs w).2 := by
  intro xs
  induction xs with
  | nil => intro w; exact archiveRun_refl env base w .nil (by simp)
  | cons x xs ih =>
    intro w
    have h1 := hf x w
    cases hfx : f x w with
    | mk w1 r =>
      rw [hfx] at h1
      cases r with
      | nil =>
        have : forEach f (x :: xs) w = forEach f xs w1 := by simp [forEach, hfx]
        rw [this]
        exact archiveRun_trans env base w w1 _ _ h1 (ih w1)
      | err e =>
        have : forEach f (x :: xs) w = (w1, .err e) := by simp [forEach, hfx]
        rw [this]; exact h1
      | outOfFuel =>
        have : forEach f (x :: xs) w = (w1, .outOfFuel) := by simp [forEach, hfx]
        rw [this]; exact h1

/-- The normalised path `addFile` and `addPlaylist` work on. -/
theorem addFile_denied (env : Env) (ar : Codec) (base : GoString) (fuel : Nat)
    (p : GoString) (w : World) (hck : env.Check (replaceByte '\\' '/' p) = false) :
    addFile env ar base (fuel + 1) p w = (w, .nil) := by
  simp [addFile, hck]

theorem addFile_stat_err (env : Env) (ar : Codec) (base : GoString) (fuel : Nat)
    (p : GoString) (w : World) (e : GoErr) (hck : env.Check (replaceByte '\\' '/' p) = true)
    (hstat : env.Stat (replaceByte '\\' '/' p) = .error e) :
    addFile env ar base (fuel + 1) p w
      = ({ w with calls := w.calls ++ [.Stat (replaceByte '\\' '/' p)] }, .err e) := by
  simp [addFile, hck, hstat]

theorem addFile_open_err (env : Env) (ar : Codec) (base : GoString) (fuel : Nat)
    (p : GoString) (w : World) (e : GoErr) (info : FileInfo)
    (hck : env.Check (replaceByte '\\' '/' p) = true)
    (hstat : env.Stat (replaceByte '\\' '/' p) = .ok info)
    (hopen : env.Open (replaceByte '\\' '/' p) = .error e) :
    addFile env ar base (fuel + 1) p w
      = ({ w with calls := w.calls ++
            [.Stat (replaceByte '\\' '/' p), .Open (replaceByte '\\' '/' p)] }, .err e) := by
  simp [addFile, hck, hstat, hopen]

theorem addFile_write_err (env : Env) (ar : Codec) (base : GoString) (fuel : Nat)
    (p : GoString) (w : World) (e : GoErr) (info : FileInfo) (file : File)
    (hck : env.Check (replaceByte '\\' '/' p) = true)
    (hstat : env.Stat (replaceByte '\\' '/' p) = .ok info)
    (hopen : env.Open (replaceByte '\\' '/' p) = .ok file)
    (hwr : env.arWrite ar (w.written.map Prod.snd)
      ⟨info, trimPrefix (trimPrefix (replaceByte '\\' '/' p) base) ['/'], file⟩ = some e) :
    addFile env ar base (fuel + 1) p w
      = ({ w with calls := w.calls ++
            [.Stat (replaceByte '\\' '/' p), .Open (replaceByte '\\' '/' p)] }, .err e) := by
  simp [addFile, hck, hstat, hopen, hwr]

theorem addFile_readdir_err (env : Env) (ar : Codec) (base : GoString) (fuel : Nat)
    (p : GoString) (w : World) (e : GoErr) (info : FileInfo) (file : File)
    (hck : env.Check (replaceByte '\\' '/' p) = true)
    (hstat : env.Stat (replaceByte '\\' '/' p) = .ok info)
    (hopen : env.Open (replaceByte '\\' '/' p) = .ok file)
    (hwr : env.arWrite ar (w.written.map Prod.snd)
      ⟨info, trimPrefix (trimPrefix (replaceByte '\\' '/' p) base) ['/'], file⟩ = none)
    (hdir : info.isDir = true) (hrd : file.readdirnames = .error e) :
    addFile env ar base (fuel + 1) p w
      = ({ w with
            calls := w.calls ++ [.Stat (replaceByte '\\' '/' p), .Open (replaceByte '\\' '/' p),
              .Readdirnames (replaceByte '\\' '/' p)],
            written := w.written ++ [(replaceByte '\\' '/' p,
              ⟨info, trimPrefix (trimPrefix (replaceByte '\\' '/' p) base) ['/'], file⟩)] },
          .err e) := by
  simp [addFile, hck, hstat, hopen, hwr, hdir, hrd]

theorem addFile_file (env : Env) (ar : Codec) (base : GoString) (fuel : Nat)
    (p : GoString) (w : World) (info : FileInfo) (file : File)
    (hck : env.Check (replaceByte '\\' '/' p) = true)
    (hstat : env.Stat (replaceByte '\\' '/' p) = .ok info)
    (hopen : env.Open (replaceByte '\\' '/' p) = .ok file)
    (hwr : env.arWrite ar (w.written.map Prod.snd)
      ⟨info, trimPrefix (trimPrefix (replaceByte '\\' '/' p) base) ['/'], file⟩ = none)
    (hdir : info.isDir = false) :
    addFile env ar base (fuel + 1) p w
      = ({ w with
            calls := w.calls ++ [.Stat (replaceByte '\\' '/' p), .Open (replaceByte '\\' '/' p)],
            written := w.written ++ [(replaceByte '\\' '/' p,
              ⟨info, trimPrefix (trimPrefix (replaceByte '\\' '/' p) base) ['/'], file⟩)] },
          .nil) := by
  simp [addFile, hck, hstat, hopen, hwr, hdir]

theorem addFile_dir (env : Env) (ar : Codec) (base : GoString) (fuel : Nat)
    (p : GoString) (w : World) (info : FileInfo) (file : File) (names : List GoString)
    (hck : env.Check (replaceByte '\\' '/' p) = true)
    (hstat : env.Stat (replaceByte '\\' '/' p) = .ok info)
    (hopen : env.Open (replaceByte '\\' '/' p) = .ok file)
    (hwr : env.arWrite ar (w.written.map Prod.snd)
      ⟨info, trimPrefix (trimPrefix (replaceByte '\\' '/' p) base) ['/'], file⟩ = none)
    (hdir : info.isDir = true) (hrd : file.readdirnames = .ok names) :
    addFile env ar base (fuel + 1) p w
      = forEach (fun name => addFile env ar base fuel
            (filepathJoin (replaceByte '\\' '/' p) name)) names
          { w with
            calls := w.calls ++ [.Stat (replaceByte '\\' '/' p), .Open (replaceByte '\\' '/' p),
              .Readdirnames (replaceByte '\\' '/' p)],
            written := w.written ++ [(replaceByte '\\' '/' p,
              ⟨info, trimPrefix (trimPrefix (replaceByte '\\' '/' p) base) ['/'], file⟩)] } := by
  simp [addFile, hck, hstat, hopen, hwr, hdir, hrd]

theorem addFile_archiveRun (env : Env) (ar : Codec) (base : GoString) :
    ∀ (fuel : Nat) (p : GoString) (w : World),
      ArchiveRun env base w (addFile env ar base fuel p w).1 (addFile env ar base fuel p w).2 := by
  intro fuel
  induction fuel with
  | zero => intro p w; exact archiveRun_refl env base w .outOfFuel (by simp)
  | succ fuel ih =>
    intro p w
    have hmem2 : ∀ c ∈ [FsCall.Stat (replaceByte '\\' '/' p), .Open (replaceByte '\\' '/' p)],
        env.Check (replaceByte '\\' '/' p) = true → env.Check c.path = true := by
      intro c hc h
      simp at hc
      rcases hc with hc | hc <;> (rw [hc]; exact h)
    have hmem3 : ∀ c ∈ [FsCall.Stat (replaceByte '\\' '/' p), .Open (replaceByte '\\' '/' p),
        .Readdirnames (replaceByte '\\' '/' p)],
        env.Check (replaceByte '\\' '/' p) = true → env.Check c.path = true := by
      intro c hc h
      simp at hc
      rcases hc with hc | hc | hc <;> (rw [hc]; exact h)
    by_cases hck : env.Check (replaceByte '\\' '/' p) = true
    · cases hstat : env.Stat (replaceByte '\\' '/' p) with
      | error e =>
        rw [addFile_stat_err env ar base fuel p w e hck hstat]
        refine ⟨[.Stat (replaceByte '\\' '/' p)], [], by simp, ?_, by simp, by simp, ?_⟩
        · intro c hc; simp at hc; rw [hc]; exact hck
        · intro err _; right; exact ⟨replaceByte '\\' '/' p, rfl, Or.inl rfl⟩
      | ok info =>
        cases hopen : env.Open (replaceByte '\\' '/' p) with
        | error e =>
          rw [addFile_open_err env ar base fuel p w e info hck hstat hopen]
          refine ⟨[.Stat (replaceByte '\\' '/' p), .Open (replaceByte '\\' '/' p)], [],
            by simp, fun c hc => hmem2 c hc hck, by simp, by simp, ?_⟩
          intro err _; right; exact ⟨replaceByte '\\' '/' p, rfl, Or.inr rfl⟩
        | ok file =>
          cases hwr : env.arWrite ar (List.map Prod.snd w.written)
              ⟨info, trimPrefix (trimPrefix (replaceByte '\\' '/' p) base) ['/'], file⟩ with
          | some e =>
            rw [addFile_write_err env ar base fuel p w e info file hck hstat hopen hwr]
            refine ⟨[.Stat (replaceByte '\\' '/' p), .Open (replaceByte '\\' '/' p)], [],
              by simp, fun c hc => hmem2 c hc hck, by simp, by simp, ?_⟩
            intro err _; right; exact ⟨replaceByte '\\' '/' p, rfl, Or.inr rfl⟩
          | none =>
            cases hdir : info.isDir with
            | true =>
              cases hrd : file.readdirnames with
              | error e =>
                rw [addFile_readdir_err env ar base fuel p w e info file hck hstat hopen hwr
                  hdir hrd]
                refine ⟨_, _, rfl, fun c hc => hmem3 c hc hck, ?_, by simp, ?_⟩
                · intro e he; simp at he; rw [he]; exact ⟨hck, rfl⟩
                · intro err _; left; exact ⟨rfl, replaceByte '\\' '/' p, rfl⟩
              | ok names =>
                rw [addFile_dir env ar base fuel p w info file names hck hstat hopen hwr
                  hdir hrd]
                refine archiveRun_trans env base w _ _ _ ?_
                  (forEach_archiveRun env base _ (fun x w1 => ih _ w1) names _)
                refine ⟨_, _, rfl, fun c hc => hmem3 c hc hck, ?_, fun _ => rfl, by simp⟩
                intro e he; simp at he; rw [he]; exact ⟨hck, rfl⟩
            | false =>
              rw [addFile_file env ar base fuel p w info file hck hstat hopen hwr hdir]
              refine ⟨_, _, rfl, fun c hc => hmem2 c hc hck, ?_, fun _ => rfl, by simp⟩
              intro e he; simp at he; rw [he]; exact ⟨hck, rfl⟩
    · rw [addFile_denied env ar base fuel p w (by simpa using hck)]
      exact archiveRun_refl env base w .nil (by simp)

theorem forEach_nil (f : GoString → World → World × Ret) :
    ∀ (xs : List GoString), (∀ x ∈ xs, ∀ w, (f x w).2 = .nil) →
      ∀ w, (forEach f xs w).2 = .nil := by
  intro xs
  induction xs with
  | nil => intro _ w; rfl
  | cons x xs ih =>
    intro h w
    have hx := h x (by simp) w
    cases hfx : f x w with
    | mk w1 r =>
      rw [hfx] at hx
      simp only at hx
      subst hx
      have : forEach f (x :: xs) w = forEach f xs w1 := by simp [forEach, hfx]
      rw [this]
      exact ih (fun y hy => h y (List.mem_cons_of_mem _ hy)) w1

/-- What `nodeOk` gives at a permitted path of `S`. -/
theorem nodeOk_spec (env : Env) (S : List GoString) (rank : GoString → Nat) (p : GoString)
    (h : nodeOk env S rank p = true) :
    ∃ info file, env.Stat p = .ok info ∧ env.Open p = .ok file ∧
      (info.isDir = true → ∃ names, file.readdirnames = .ok names ∧
        ∀ n ∈ names, rank (replaceByte '\\' '/' (filepathJoin p n)) < rank p ∧
          (env.Check (replaceByte '\\' '/' (filepathJoin p n)) = true →
            replaceByte '\\' '/' (filepathJoin p n) ∈ S)) := by
  unfold nodeOk at h
  cases hstat : env.Stat p with
  | error e => rw [hstat] at h; simp at h
  | ok info =>
    cases hopen : env.Open p with
    | error e => rw [hstat, hopen] at h; simp at h
    | ok file =>
      refine ⟨info, file, rfl, rfl, ?_⟩
      intro hdir
      rw [hstat, hopen] at h
      simp only [hdir, Bool.not_true, Bool.false_or] at h
      cases hrd : file.readdirnames with
      | error e => rw [hrd] at h; simp at h
      | ok names =>
        refine ⟨names, rfl, ?_⟩
        rw [hrd] at h
        simp only [List.all_eq_true, Bool.and_eq_true, decide_eq_true_eq, Bool.or_eq_true,
          Bool.not_eq_true'] at h
        intro n hn
        obtain ⟨h1, h2⟩ := h n hn
        refine ⟨h1, fun hc => ?_⟩
        rcases h2 with h2 | h2
        · rw [h2] at hc; exact absurd hc (by simp)
        · simpa using h2

theorem addFile_ok (env : Env) (ar : Codec) (base : GoString) (S : List GoString)
    (rank : GoString → Nat) (hwalk : WalkOk env S rank)
    (hwrite : ∀ ws f, env.arWrite ar ws f = none) :
    ∀ (fuel : Nat) (p : GoString) (w : World),
      rank (replaceByte '\\' '/' p) < fuel →
      (env.Check (replaceByte '\\' '/' p) = true → replaceByte '\\' '/' p ∈ S) →
      (addFile env ar base fuel p w).2 = .nil := by
  intro fuel
  induction fuel with
  | zero => intro p w h _; exact absurd h (Nat.not_lt_zero _)
  | succ fuel ih =>
    intro p w hrank hS
    by_cases hck : env.Check (replaceByte '\\' '/' p) = true
    · obtain ⟨info, file, hstat, hopen, hdirs⟩ :=
        nodeOk_spec env S rank _ (hwalk _ (hS hck) hck)
      cases hdir : info.isDir with
      | true =>
        obtain ⟨names, hrd, hnames⟩ := hdirs hdir
        rw [addFile_dir env ar base fuel p w info file names hck hstat hopen (hwrite _ _)
          hdir hrd]
        apply forEach_nil
        intro n hn w1
        obtain ⟨h1, h2⟩ := hnames n hn
        exact ih _ w1 (by omega) h2
      | false =>
        rw [addFile_file env ar base fuel p w info file hck hstat hopen (hwrite _ _) hdir]
    · rw [addFile_denied env ar base fuel p w (by simpa using hck)]

theorem forEach_append (f : GoString → World → World × Ret) :
    ∀ (pre xs : List GoString) (w w1 : World), forEach f pre w = (w1, .nil) →
      forEach f (pre ++ xs) w = forEach f xs w1 := by
  intro pre
  induction pre with
  | nil =>
    intro xs w w1 h
    simp only [forEach, Prod.mk.injEq, and_true] at h
    subst h; rfl
  | cons x pre ih =>
    intro xs w w1 h
    cases hfx : f x w with
    | mk w2 r =>
      cases r with
      | nil =>
        have e1 : forEach f (x :: pre) w = forEach f pre w2 := by simp [forEach, hfx]
        have e2 : forEach f (x :: pre ++ xs) w = forEach f (pre ++ xs) w2 := by
          simp [forEach, hfx]
        rw [e2]
        rw [e1] at h
        exact ih xs w2 w1 h
      | err e =>
        have e1 : forEach f (x :: pre) w = (w2, .err e) := by simp [forEach, hfx]
        rw [e1] at h; simp at h
      | outOfFuel =>
        have e1 : forEach f (x :: pre) w = (w2, .outOfFuel) := by simp [forEach, hfx]
        rw [e1] at h; simp at h

theorem hasPrefix_of_isPrefix (s p : GoString) (h : p <+: s) : hasPrefix s p = true := by
  unfold hasPrefix
  exact List.isPrefixOf_iff_prefix.mpr h

/-! ## The archive exporter: `addFile` and `rawDirHandler` -/

/-- C1: when the filesystem is a finite tree on which every `Stat`, `Open`,
`Readdirnames` and archive `Write` succeeds, the archive export (`addFile` on each
target, as `rawDirHandler` does) returns no error; every filesystem call it makes
and every entry it writes is for a path that `Check` permits, and every permitted
path visited has its entry; a path that `Check` denies is never stat'ed, opened
or listed and gets no entry, and `addFile` on it returns at once without any
effect, so nothing is written by descending through it. -/
theorem addFiles_permitted_only (env : Env) (ar : Codec) (base : GoString)
    (S : List GoString) (rank : GoString → Nat) (fuel : Nat) (targets : List GoString)
    (w : World) (hwalk : WalkOk env S rank)
    (hwrite : ∀ ws f, env.arWrite ar ws f = none)
    (htargets : TargetsOk env S rank fuel targets) :
    (forEach (addFile env ar base fuel) targets w).2 = .nil ∧
    (∃ newC newW,
      (forEach (addFile env ar base fuel) targets w).1
        = { w with calls := w.calls ++ newC, written := w.written ++ newW } ∧
      (∀ c ∈ newC, env.Check c.path = true) ∧
      (∀ e ∈ newW, env.Check e.1 = true) ∧
      statPaths newC = newW.map Prod.fst ∧
      (∀ p, env.Check p = false →
        FsCall.Stat p ∉ newC ∧ FsCall.Open p ∉ newC ∧ FsCall.Readdirnames p ∉ newC ∧
          p ∉ newW.map Prod.fst)) ∧
    (∀ p n w1, env.Check (replaceByte '\\' '/' p) = false →
      addFile env ar base (n + 1) p w1 = (w1, .nil)) := by
  have hnil : (forEach (addFile env ar base fuel) targets w).2 = .nil := by
    apply forEach_nil
    intro t ht w1
    exact addFile_ok env ar base S rank hwalk hwrite fuel t w1 (htargets t ht).1 (htargets t ht).2
  refine ⟨hnil, ?_, fun p n w1 h => addFile_denied env ar base n p w1 h⟩
  obtain ⟨newC, newW, heq, hc, hn, hs, _⟩ :=
    forEach_archiveRun env base _ (fun x w1 => addFile_archiveRun env ar base fuel x w1) targets w
  refine ⟨newC, newW, heq, hc, fun e he => (hn e he).1, hs hnil, ?_⟩
  intro p hp
  have hcall : ∀ c ∈ newC, c.path ≠ p := by
    intro c hcm hcp
    have := hc c hcm
    rw [hcp, hp] at this
    exact absurd this (by simp)
  refine ⟨fun h => hcall _ h rfl, fun h => hcall _ h rfl, fun h => hcall _ h rfl, ?_⟩
  intro hmem
  obtain ⟨e, he, hep⟩ := List.mem_map.mp hmem
  have := (hn e he).1
  rw [hep, hp] at this
  exact absurd this (by simp)

/-- C2: every entry the archive export writes is named by the path it was written
for with the common base removed and then a leading `/` removed; this holds on
every level of the recursion, since a child is visited as `Join(p, name)` with
the same base.  With base `/root`, the paths `/root/a.txt` and `/root/dir/b.txt`
get the names `a.txt` and `dir/b.txt`, whether `dir/b.txt` is a target itself or
is reached through the target `/root/dir`. -/
theorem addFile_entry_names (env : Env) (ar : Codec) (base : GoString) (fuel : Nat)
    (targets : List GoString) (w : World) :
    (∃ newW, (forEach (addFile env ar base fuel) targets w).1.written = w.written ++ newW ∧
      ∀ e ∈ newW, env.Check e.1 = true ∧
        e.2.customName = trimPrefix (trimPrefix e.1 base) ['/'] ∧
        (base <+: e.1 → e.2.customName = trimPrefix (e.1.drop base.length) ['/'])) ∧
    (forEach (addFile rootEnv .Zip "/root".toList 3)
        ["/root/a.txt".toList, "/root/dir/b.txt".toList] World.init).1.written.map
      (fun e => (e.1, e.2.customName))
      = [("/root/a.txt".toList, "a.txt".toList), ("/root/dir/b.txt".toList, "dir/b.txt".toList)] ∧
    (forEach (addFile rootEnv .Zip "/root".toList 3)
        ["/root/a.txt".toList, "/root/dir".toList] World.init).1.written.map
      (fun e => (e.1, e.2.customName))
      = [("/root/a.txt".toList, "a.txt".toList), ("/root/dir".toList, "dir".toList),
         ("/root/dir/b.txt".toList, "dir/b.txt".toList)] := by
  refine ⟨?_, by decide, by decide⟩
  obtain ⟨newC, newW, heq, _, hn, _, _⟩ :=
    forEach_archiveRun env base _ (fun x w1 => addFile_archiveRun env ar base fuel x w1) targets w
  refine ⟨newW, by rw [heq], ?_⟩
  intro e he
  refine ⟨(hn e he).1, (hn e he).2, fun hpre => ?_⟩
  rw [(hn e he).2]
  unfold trimPrefix
  rw [hasPrefix_of_isPrefix _ _ hpre]
  simp

set_option maxRecDepth 100000 in
theorem addFiles_permitted_only_witness :
    WalkOk rootEnv
      ["/root".toList, "/root/a.txt".toList, "/root/dir".toList, "/root/dir/b.txt".toList]
      rootRank ∧
    TargetsOk rootEnv
      ["/root".toList, "/root/a.txt".toList, "/root/dir".toList, "/root/dir/b.txt".toList]
      rootRank 3 ["/root".toList] ∧
    (forEach (addFile rootEnv .Zip "/root".toList 3) ["/root".toList] World.init).2 = .nil ∧
    (forEach (addFile rootEnv .Zip "/root".toList 3) ["/root".toList] World.init).1.written.map
      Prod.fst
      = ["/root".toList, "/root/a.txt".toList, "/root/dir".toList, "/root/dir/b.txt".toList] := by
  have hwalk : WalkOk rootEnv
      ["/root".toList, "/root/a.txt".toList, "/root/dir".toList, "/root/dir/b.txt".toList]
      rootRank := by
    unfold WalkOk; decide
  have htargets : TargetsOk rootEnv
      ["/root".toList, "/root/a.txt".toList, "/root/dir".toList, "/root/dir/b.txt".toList]
      rootRank 3 ["/root".toList] := by
    unfold TargetsOk; decide
  exact ⟨hwalk, htargets,
    (addFiles_permitted_only rootEnv .Zip "/root".toList _ rootRank 3 ["/root".toList]
      World.init hwalk (fun _ _ => rfl) htargets).1, by decide⟩

/-! ## Facts about the playlist exporter -/

theorem playlistItems_append (env : Env) :
    ∀ (a b : List (GoString × File)) (k : Nat),
      playlistItems env (a ++ b) k
        = playlistItems env a k ++ playlistItems env b (k + a.length) := by
  intro a
  induction a with
  | nil => intro b k; simp [playlistItems]
  | cons x a ih =>
    intro b k
    obtain ⟨p, f⟩ := x
    have hk : k + 1 + a.length = k + (a.length + 1) := by omega
    show (if isMedia env p = true then [(k, f)] else []) ++ playlistItems env (a ++ b) (k + 1)
      = playlistItems env ((p, f) :: a) k ++ playlistItems env b (k + ((p, f) :: a).length)
    rw [ih b (k + 1), hk]
    simp [playlistItems]

theorem playlistRun_refl (env : Env) (r : Request) (w : World) :
    PlaylistRun env r [] w w :=
  ⟨[], by simp [playlistItems]⟩

theorem playlistRun_trans (env : Env) (r : Request) (f1 f2 : List (GoString × File))
    (w w1 w2 : World) (h1 : PlaylistRun env r f1 w w1) (h2 : PlaylistRun env r f2 w1 w2) :
    PlaylistRun env r (f1 ++ f2) w w2 := by
  obtain ⟨c1, e1⟩ := h1
  obtain ⟨c2, e2⟩ := h2
  refine ⟨c1 ++ c2, ?_⟩
  rw [e2, e1]
  simp [playlistItems_append, Nat.add_assoc]

theorem forEach_playlistRun (env : Env) (r : Request)
    (f : GoString → World → World × Ret) (g : GoString → List (GoString × File)) :
    ∀ (xs : List GoString),
      (∀ x ∈ xs, ∀ w, (f x w).2 = .nil ∧ PlaylistRun env r (g x) w (f x w).1) →
      ∀ w, (forEach f xs w).2 = .nil ∧ PlaylistRun env r (xs.flatMap g) w (forEach f xs w).1 := by
  intro xs
  induction xs with
  | nil => intro _ w; exact ⟨rfl, playlistRun_refl env r w⟩
  | cons x xs ih =>
    intro h w
    obtain ⟨hx1, hx2⟩ := h x (by simp) w
    cases hfx : f x w with
    | mk w1 r1 =>
      rw [hfx] at hx1 hx2
      simp only at hx1 hx2
      subst hx1
      have e : forEach f (x :: xs) w = forEach f xs w1 := by simp [forEach, hfx]
      obtain ⟨i1, i2⟩ := ih (fun y hy => h y (List.mem_cons_of_mem _ hy)) w1
      rw [e]
      refine ⟨i1, ?_⟩
      rw [List.flatMap_cons]
      exact playlistRun_trans env r _ _ w w1 _ hx2 i2

theorem addPlaylist_denied (env : Env) (r : Request) (fuel : Nat) (p : GoString) (w : World)
    (hck : env.Check (replaceByte '\\' '/' p) = false) :
    addPlaylist env r (fuel + 1) p w = (w, .nil) := by
  simp [addPlaylist, hck]

theorem addPlaylist_dir (env : Env) (r : Request) (fuel : Nat) (p : GoString) (w : World)
    (info : FileInfo) (file : File) (names : List GoString)
    (hck : env.Check (replaceByte '\\' '/' p) = true)
    (hstat : env.Stat (replaceByte '\\' '/' p) = .ok info)
    (hopen : env.Open (replaceByte '\\' '/' p) = .ok file)
    (hdir : info.isDir = true) (hrd : file.readdirnames = .ok names) :
    addPlaylist env r (fuel + 1) p w
      = forEach (fun name => addPlaylist env r fuel
            (filepathJoin (replaceByte '\\' '/' p) name)) names
          { w with calls := w.calls ++ [.Stat (replaceByte '\\' '/' p),
              .Open (replaceByte '\\' '/' p), .Readdirnames (replaceByte '\\' '/' p)] } := by
  simp [addPlaylist, hck, hstat, hopen, hdir, hrd]

theorem addPlaylist_other (env : Env) (r : Request) (fuel : Nat) (p : GoString) (w : World)
    (info : FileInfo) (file : File) (type : String)
    (hck : env.Check (replaceByte '\\' '/' p) = true)
    (hstat : env.Stat (replaceByte '\\' '/' p) = .ok info)
    (hopen : env.Open (replaceByte '\\' '/' p) = .ok file)
    (hdir : info.isDir = false) (hrand : env.randErr w.rand = none)
    (hkind : env.NewFileInfoType (replaceByte '\\' '/' p) = .ok type)
    (hty : type ≠ "video" ∧ type ≠ "audio") :
    addPlaylist env r (fuel + 1) p w
      = ({ w with
            calls := w.calls ++ [.Stat (replaceByte '\\' '/' p), .Open (replaceByte '\\' '/' p)],
            rand := w.rand + 1 }, .nil) := by
  simp [addPlaylist, hck, hstat, hopen, hdir, hrand, hkind, hty]

theorem addPlaylist_media (env : Env) (r : Request) (fuel : Nat) (p : GoString) (w : World)
    (info : FileInfo) (file : File) (type : String)
    (hck : env.Check (replaceByte '\\' '/' p) = true)
    (hstat : env.Stat (replaceByte '\\' '/' p) = .ok info)
    (hopen : env.Open (replaceByte '\\' '/' p) = .ok file)
    (hdir : info.isDir = false) (hrand : env.randErr w.rand = none)
    (hkind : env.NewFileInfoType (replaceByte '\\' '/' p) = .ok type)
    (hty : ¬ (type ≠ "video" ∧ type ≠ "audio"))
    (hsave : env.ShareSave w.links (linkOf env w.rand file) = none) :
    addPlaylist env r (fuel + 1) p w
      = ((Fprintf env
            { w with
              calls := w.calls ++ [.Stat (replaceByte '\\' '/' p), .Open (replaceByte '\\' '/' p)],
              rand := w.rand + 1,
              links := w.links ++ [linkOf env w.rand file] }
            (downloadLine r env w.rand file)).1, .nil) := by
  have hsave2 : env.ShareSave w.links
      ⟨file.name, EncodeToString ((List.range 6).map (fun i => env.randByte w.rand i % 256)),
        env.now w.rand + 24 * 3600, env.userID⟩ = none := hsave
  simp only [addPlaylist, hck, hstat, hopen, hdir, hrand, hkind, hty, hsave2, Bool.not_true,
    Bool.false_eq_true, if_false, List.append_assoc, List.cons_append, List.nil_append,
    downloadLine, linkOf, tokenOf]

theorem walkFiles_denied (env : Env) (fuel : Nat) (p : GoString)
    (hck : env.Check (replaceByte '\\' '/' p) = false) :
    walkFiles env (fuel + 1) p = [] := by
  simp [walkFiles, hck]

theorem walkFiles_dir (env : Env) (fuel : Nat) (p : GoString) (info : FileInfo) (file : File)
    (names : List GoString) (hck : env.Check (replaceByte '\\' '/' p) = true)
    (hstat : env.Stat (replaceByte '\\' '/' p) = .ok info)
    (hopen : env.Open (replaceByte '\\' '/' p) = .ok file)
    (hdir : info.isDir = true) (hrd : file.readdirnames = .ok names) :
    walkFiles env (fuel + 1) p
      = names.flatMap (fun n => walkFiles env fuel (filepathJoin (replaceByte '\\' '/' p) n)) := by
  simp [walkFiles, hck, hstat, hopen, hdir, hrd]

theorem walkFiles_file (env : Env) (fuel : Nat) (p : GoString) (info : FileInfo) (file : File)
    (hck : env.Check (replaceByte '\\' '/' p) = true)
    (hstat : env.Stat (replaceByte '\\' '/' p) = .ok info)
    (hopen : env.Open (replaceByte '\\' '/' p) = .ok file)
    (hdir : info.isDir = false) :
    walkFiles env (fuel + 1) p = [(replaceByte '\\' '/' p, file)] := by
  simp [walkFiles, hck, hstat, hopen, hdir]

theorem playlistRun_calls (env : Env) (r : Request) (w : World) (c : List FsCall) :
    PlaylistRun env r [] w { w with calls := w.calls ++ c } :=
  ⟨c, by simp [playlistItems]⟩

theorem addPlaylist_spec (env : Env) (r : Request) (S : List GoString) (rank : GoString → Nat)
    (hwalk : WalkOk env S rank)
    (hkind : ∀ p ∈ S, env.Check p = true → (env.NewFileInfoType p).isOk = true)
    (hrand : ∀ k, env.randErr k = none) (hsave : ∀ ls l, env.ShareSave ls l = none)
    (hsink : ∀ ws s, env.sinkWrite ws s = none) :
    ∀ (fuel : Nat) (p : GoString) (w : World),
      rank (replaceByte '\\' '/' p) < fuel →
      (env.Check (replaceByte '\\' '/' p) = true → replaceByte '\\' '/' p ∈ S) →
      (addPlaylist env r fuel p w).2 = .nil ∧
        PlaylistRun env r (walkFiles env fuel p) w (addPlaylist env r fuel p w).1 := by
  intro fuel
  induction fuel with
  | zero => intro p w h _; exact absurd h (Nat.not_lt_zero _)
  | succ fuel ih =>
    intro p w hrank hS
    by_cases hck : env.Check (replaceByte '\\' '/' p) = true
    · obtain ⟨info, file, hstat, hopen, hdirs⟩ :=
        nodeOk_spec env S rank _ (hwalk _ (hS hck) hck)
      cases hdir : info.isDir with
      | true =>
        obtain ⟨names, hrd, hnames⟩ := hdirs hdir
        rw [addPlaylist_dir env r fuel p w info file names hck hstat hopen hdir hrd,
          walkFiles_dir env fuel p info file names hck hstat hopen hdir hrd]
        have hloop := forEach_playlistRun env r
          (fun name => addPlaylist env r fuel (filepathJoin (replaceByte '\\' '/' p) name))
          (fun n => walkFiles env fuel (filepathJoin (replaceByte '\\' '/' p) n)) names
          (fun n hn w1 => ih _ w1 (by have := (hnames n hn).1; omega) (hnames n hn).2)
          { w with calls := w.calls ++ [.Stat (replaceByte '\\' '/' p),
              .Open (replaceByte '\\' '/' p), .Readdirnames (replaceByte '\\' '/' p)] }
        refine ⟨hloop.1, ?_⟩
        have := playlistRun_trans env r [] _ w _ _ (playlistRun_calls env r w _) hloop.2
        simpa using this
      | false =>
        rw [walkFiles_file env fuel p info file hck hstat hopen hdir]
        cases hty : env.NewFileInfoType (replaceByte '\\' '/' p) with
        | error e =>
          have := hkind _ (hS hck) hck
          rw [hty] at this
          simp [Except.isOk, Except.toBool] at this
        | ok type =>
          by_cases hmedia : type ≠ "video" ∧ type ≠ "audio"
          · rw [addPlaylist_other env r fuel p w info file type hck hstat hopen hdir
              (hrand _) hty hmedia]
            refine ⟨rfl, [.Stat (replaceByte '\\' '/' p), .Open (replaceByte '\\' '/' p)], ?_⟩
            have hm : isMedia env (replaceByte '\\' '/' p) = false := by
              simp [isMedia, hty, hmedia.1, hmedia.2]
            simp [playlistItems, hm]
          · rw [addPlaylist_media env r fuel p w info file type hck hstat hopen hdir
              (hrand _) hty hmedia (hsave _ _)]
            refine ⟨rfl, [.Stat (replaceByte '\\' '/' p), .Open (replaceByte '\\' '/' p)], ?_⟩
            have hm : isMedia env (replaceByte '\\' '/' p) = true := by
              simp only [not_and_or, not_not] at hmedia
              rcases hmedia with h | h <;> simp [isMedia, hty, h]
            simp [playlistItems, hm, Fprintf, hsink]
    · have hck2 : env.Check (replaceByte '\\' '/' p) = false := by simpa using hck
      rw [addPlaylist_denied env r fuel p w hck2, walkFiles_denied env fuel p hck2]
      exact ⟨rfl, playlistRun_refl env r w⟩

theorem walkFiles_mem (env : Env) :
    ∀ (fuel : Nat) (p : GoString) (x : GoString × File), x ∈ walkFiles env fuel p →
      env.Check x.1 = true ∧
        ∃ info, env.Stat x.1 = .ok info ∧ info.isDir = false ∧ env.Open x.1 = .ok x.2 := by
  intro fuel
  induction fuel with
  | zero => intro p x hx; simp [walkFiles] at hx
  | succ fuel ih =>
    intro p x hx
    by_cases hck : env.Check (replaceByte '\\' '/' p) = true
    · cases hstat : env.Stat (replaceByte '\\' '/' p) with
      | error e => simp [walkFiles, hck, hstat] at hx
      | ok info =>
        cases hopen : env.Open (replaceByte '\\' '/' p) with
        | error e => simp [walkFiles, hck, hstat, hopen] at hx
        | ok file =>
          cases hdir : info.isDir with
          | true =>
            cases hrd : file.readdirnames with
            | error e => simp [walkFiles, hck, hstat, hopen, hdir, hrd] at hx
            | ok names =>
              rw [walkFiles_dir env fuel p info file names hck hstat hopen hdir hrd] at hx
              obtain ⟨n, _, hn⟩ := List.mem_flatMap.mp hx
              exact ih _ x hn
          | false =>
            rw [walkFiles_file env fuel p info file hck hstat hopen hdir] at hx
            simp only [List.mem_singleton] at hx
            subst hx
            exact ⟨hck, info, hstat, hdir, hopen⟩
    · rw [walkFiles_denied env fuel p (by simpa using hck)] at hx
      simp at hx

theorem playlistItems_files (env : Env) :
    ∀ (files : List (GoString × File)) (k : Nat),
      (playlistItems env files k).map Prod.snd
        = (files.filter (fun x => isMedia env x.1)).map Prod.snd := by
  intro files
  induction files with
  | nil => intro k; rfl
  | cons x files ih =>
    intro k
    obtain ⟨p, f⟩ := x
    by_cases hm : isMedia env p = true
    · simp [playlistItems, hm, ih]
    · simp [playlistItems, hm, ih]

/-! ## The playlist exporter: `addPlaylist` and `rawPlaylistHandler` -/

/-- What a playlist export does when nothing fails.  When the filesystem is a
finite tree on which every filesystem call succeeds and the random source,
`files.NewFileInfo`, the share store and the response writer never fail,
`rawPlaylistHandler` returns status 0 and no error; it writes `#EXTM3U` first and
then one chunk for each media file among the files visited (the permitted
non-directory nodes, in depth-first order), in that order, and saves one link
each, in that order; nothing else is written or saved.  A chunk is what
`fmt.Fprintf` makes of the download line when it reads it as a format. -/
theorem rawPlaylistHandler_lines (env : Env) (r : Request) (file : DirInfo)
    (S : List GoString) (rank : GoString → Nat) (fuel : Nat) (targets : List GoString)
    (w : World) (hfiles : parseQueryFiles r.files file.Path = .ok targets)
    (hwalk : WalkOk env S rank) (htargets : TargetsOk env S rank fuel targets)
    (hkind : ∀ p ∈ S, env.Check p = true → (env.NewFileInfoType p).isOk = true)
    (hrand : ∀ k, env.randErr k = none) (hsave : ∀ ls l, env.ShareSave ls l = none)
    (hsink : ∀ ws s, env.sinkWrite ws s = none) :
    (∃ newC, rawPlaylistHandler env r file fuel w =
      ({ setDisposition env w (attachmentName file "playlist".toList ".m3u".toList) with
          calls := w.calls ++ newC,
          sink := w.sink ++ "#EXTM3U\n".toList ::
            (playlistItems env (visitedFiles env fuel targets) w.rand).map
              (fun i => Sprintf0 (downloadLine r env i.1 i.2)),
          links := w.links ++
            (playlistItems env (visitedFiles env fuel targets) w.rand).map
              (fun i => linkOf env i.1 i.2),
          rand := w.rand + (visitedFiles env fuel targets).length }, 0, .nil)) ∧
    (playlistItems env (visitedFiles env fuel targets) w.rand).map Prod.snd
      = ((visitedFiles env fuel targets).filter (fun x => isMedia env x.1)).map Prod.snd ∧
    (∀ x ∈ visitedFiles env fuel targets, env.Check x.1 = true ∧
      ∃ info, env.Stat x.1 = .ok info ∧ info.isDir = false ∧ env.Open x.1 = .ok x.2) := by
  refine ⟨?_, playlistItems_files env _ _, ?_⟩
  · have hhdr : Sprintf0 "#EXTM3U\n".toList = "#EXTM3U\n".toList := by decide
    obtain ⟨hnil, newC, hrun⟩ := forEach_playlistRun env r (addPlaylist env r fuel)
      (walkFiles env fuel) targets
      (fun t ht w1 => addPlaylist_spec env r S rank hwalk hkind hrand hsave hsink fuel t w1
        (htargets t ht).1 (htargets t ht).2)
      { setDisposition env w (attachmentName file "playlist".toList ".m3u".toList) with
        sink := w.sink ++ ["#EXTM3U\n".toList] }
    refine ⟨newC, ?_⟩
    unfold rawPlaylistHandler
    simp only [hfiles, Fprintf, hsink, hhdr]
    cases hfe : forEach (addPlaylist env r fuel) targets
      { setDisposition env w (attachmentName file "playlist".toList ".m3u".toList) with
        sink := w.sink ++ ["#EXTM3U\n".toList] } with
    | mk wf rf =>
      rw [hfe] at hnil hrun
      simp only at hnil hrun
      subst hnil
      simp only [setDisposition] at hfe hrun ⊢
      rw [hfe, hrun]
      simp [visitedFiles, setDisposition]
  · intro x hx
    obtain ⟨t, _, ht⟩ := List.mem_flatMap.mp hx
    exact walkFiles_mem env fuel t x ht

set_option maxRecDepth 100000 in
theorem rawPlaylistHandler_lines_witness :
    parseQueryFiles [] "/music".toList = .ok ["/music".toList] ∧
    WalkOk songEnv ["/music".toList, "/music/song.mp3".toList, "/music/notes.txt".toList]
      musicRank ∧
    TargetsOk songEnv ["/music".toList, "/music/song.mp3".toList, "/music/notes.txt".toList]
      musicRank 3 ["/music".toList] ∧
    (rawPlaylistHandler songEnv ⟨[], "m3u", "http://h".toList⟩
        ⟨"/music".toList, "music".toList⟩ 3 World.init).2 = (0, .nil) ∧
    (rawPlaylistHandler songEnv ⟨[], "m3u", "http://h".toList⟩
        ⟨"/music".toList, "music".toList⟩ 3 World.init).1.sink
      = ["#EXTM3U\n".toList, "http://h/api/public/dl/AAECAwQF/song.mp3\n".toList] ∧
    (rawPlaylistHandler songEnv ⟨[], "m3u", "http://h".toList⟩
        ⟨"/music".toList, "music".toList⟩ 3 World.init).1.links
      = [⟨"/music/song.mp3".toList, "AAECAwQF".toList, 1700086400, 1⟩] := by
  have hfiles : parseQueryFiles [] "/music".toList = .ok ["/music".toList] := by decide
  have hwalk : WalkOk songEnv
      ["/music".toList, "/music/song.mp3".toList, "/music/notes.txt".toList] musicRank := by
    unfold WalkOk; decide
  have htargets : TargetsOk songEnv
      ["/music".toList, "/music/song.mp3".toList, "/music/notes.txt".toList] musicRank 3
      ["/music".toList] := by
    unfold TargetsOk; decide
  obtain ⟨_, h⟩ := (rawPlaylistHandler_lines songEnv ⟨[], "m3u", "http://h".toList⟩
    ⟨"/music".toList, "music".toList⟩ _ musicRank 3 ["/music".toList] World.init hfiles hwalk
    htargets (by decide) (fun _ => rfl) (fun _ _ => rfl) (fun _ _ => rfl)).1
  refine ⟨hfiles, hwalk, htargets, by rw [h], by decide, by decide⟩

theorem doPrintf_of_not_mem :
    ∀ (fuel : Nat) (s : List Char), '%' ∉ s → s.length ≤ fuel → doPrintf fuel s = s := by
  intro fuel
  induction fuel with
  | zero =>
    intro s _ hlen
    have : s = [] := List.length_eq_zero.mp (Nat.le_zero.mp hlen)
    subst this; rfl
  | succ fuel ih =>
    intro s hs hlen
    cases s with
    | nil => rfl
    | cons c rest =>
      have hc : c ≠ '%' := fun h => hs (by simp [h])
      have hrest : '%' ∉ rest := fun h => hs (List.mem_cons_of_mem _ h)
      simp only [doPrintf, if_neg hc]
      rw [ih rest hrest (by simpa using hlen)]

/-- C5 holds on the code only for lines without `%`: `addPlaylist` passes the line
to `fmt.Fprintf` as the format.  With the base URL `100%` the bytes written for
`song.mp3` are `100%!/(MISSING)api/public/dl/AAECAwQF/song.mp3\n` and not the
line `100%/api/public/dl/AAECAwQF/song.mp3\n` that C5 states. -/
theorem addPlaylist_line_percent :
    (∀ s : GoString, '%' ∉ s → Sprintf0 s = s) ∧
    (rawPlaylistHandler songEnv ⟨[], "m3u", "100%".toList⟩
        ⟨"/music".toList, "music".toList⟩ 3 World.init).1.sink
      = ["#EXTM3U\n".toList, "100%!/(MISSING)api/public/dl/AAECAwQF/song.mp3\n".toList] ∧
    "100%".toList ++ "/api/public/dl/".toList ++ "AAECAwQF".toList ++ ['/']
        ++ filepathBase "/music/song.mp3".toList ++ ['\n']
      = "100%/api/public/dl/AAECAwQF/song.mp3\n".toList ∧
    (rawPlaylistHandler songEnv ⟨[], "m3u", "100%".toList⟩
        ⟨"/music".toList, "music".toList⟩ 3 World.init).1.links
      = [⟨"/music/song.mp3".toList, "AAECAwQF".toList, 1700086400, 1⟩] :=
  ⟨fun s hs => doPrintf_of_not_mem s.length s hs (le_refl _), by decide, by decide, by decide⟩

/-- C9 fails on the code: `addPlaylist` assigns the error of `fmt.Fprintf` and
never returns it.  When every write after the header line fails, the export of
`/music` still visits `gig.mp4` after `song.mp3`, saves both links, writes no
line, and `rawPlaylistHandler` returns status 0 and no error. -/
theorem addPlaylist_drops_write_error :
    brokenPipeEnv.sinkWrite ["#EXTM3U\n".toList]
        "http://h/api/public/dl/AAECAwQF/song.mp3\n".toList = some (.ext 32) ∧
    (rawPlaylistHandler brokenPipeEnv ⟨[], "m3u", "http://h".toList⟩
        ⟨"/music".toList, "music".toList⟩ 3 World.init).2 = (0, .nil) ∧
    (rawPlaylistHandler brokenPipeEnv ⟨[], "m3u", "http://h".toList⟩
        ⟨"/music".toList, "music".toList⟩ 3 World.init).1.sink = ["#EXTM3U\n".toList] ∧
    statPaths (rawPlaylistHandler brokenPipeEnv ⟨[], "m3u", "http://h".toList⟩
        ⟨"/music".toList, "music".toList⟩ 3 World.init).1.calls
      = ["/music".toList, "/music/song.mp3".toList, "/music/notes.txt".toList,
         "/music/live".toList, "/music/live/gig.mp4".toList] ∧
    (rawPlaylistHandler brokenPipeEnv ⟨[], "m3u", "http://h".toList⟩
        ⟨"/music".toList, "music".toList⟩ 3 World.init).1.links.map (fun l => l.Path)
      = ["/music/song.mp3".toList, "/music/live/gig.mp4".toList] := by
  refine ⟨by decide, by decide, by decide, by decide, by decide⟩

/-! ## The models of the library functions on known inputs -/

/-- The model of `path.Clean` on the table of the Go test suite (`cleantests`). -/
theorem Clean_examples :
    [("", "."), ("abc", "abc"), ("abc/def", "abc/def"), ("a/b/c", "a/b/c"), (".", "."),
     ("..", ".."), ("../..", "../.."), ("../../abc", "../../abc"), ("/abc", "/abc"),
     ("/", "/"), ("abc/", "abc"), ("abc/def/", "abc/def"), ("a/b/c/", "a/b/c"), ("./", "."),
     ("../", ".."), ("../../", "../.."), ("/abc/", "/abc"), ("abc//def//ghi", "abc/def/ghi"),
     ("//abc", "/abc"), ("///abc", "/abc"), ("//abc//", "/abc"), ("abc//", "abc"),
     ("abc/./def", "abc/def"), ("/./abc/def", "/abc/def"), ("abc/.", "abc"),
     ("abc/def/ghi/../jkl", "abc/def/jkl"), ("abc/def/../ghi/../jkl", "abc/jkl"),
     ("abc/def/..", "abc"), ("abc/def/../..", "."), ("/abc/def/../..", "/"),
     ("abc/def/../../..", ".."), ("/abc/def/../../..", "/"),
     ("abc/def/../../../ghi/jkl/../../../mno", "../../mno"), ("abc/./../def", "def"),
     ("abc//./../def", "def"), ("abc/../../././../def", "../../def")].all
      (fun t => Clean t.1.toList == t.2.toList) = true := by
  decide

/-- The models of `filepath.Join`, `filepath.Base`, `url.QueryUnescape` and
`base64.URLEncoding` on known inputs. -/
theorem library_examples :
    filepathJoin "/srv".toList "/a/b".toList = "/srv/a/b".toList ∧
    filepathJoin "/srv".toList "/".toList = "/srv".toList ∧
    filepathJoin [] "a/../b".toList = "b".toList ∧
    filepathBase "/a/b.txt".toList = "b.txt".toList ∧
    filepathBase "/a/b//".toList = "b".toList ∧
    filepathBase "///".toList = "/".toList ∧
    filepathBase [] = ".".toList ∧
    QueryUnescape "a%2Fb+c%41".toList = .ok "a/b cA".toList ∧
    QueryUnescape "a%2".toList = .error (.EscapeError "%2".toList) ∧
    QueryUnescape "%zz1".toList = .error (.EscapeError "%zz".toList) ∧
    EncodeToString [0, 1, 2, 3, 4, 5] = "AAECAwQF".toList ∧
    EncodeToString [255, 255, 254] = "___-".toList ∧
    EncodeToString [102, 111] = "Zm8=".toList := by
  decide

/-- The model of `fmt.Fprintf` without operands on known inputs. -/
theorem Sprintf0_examples :
    Sprintf0 "#EXTM3U\n".toList = "#EXTM3U\n".toList ∧
    Sprintf0 "100%/x".toList = "100%!/(MISSING)x".toList ∧
    Sprintf0 "a%%b".toList = "a%b".toList ∧
    Sprintf0 "%d and %s".toList = "%!d(MISSING) and %!s(MISSING)".toList ∧
    Sprintf0 "50%".toList = "50%!(NOVERB)".toList ∧
    Sprintf0 "50%.".toList = "50%!.(MISSING)".toList ∧
    Sprintf0 "%.2f|%.".toList = "%!f(MISSING)|%!.(MISSING)".toList := by
  decide

/-! ## Failing runs of the archive exporter -/

theorem forEach_cons_err (f : GoString → World → World × Ret) (x : GoString)
    (xs : List GoString) (w w1 : World) (e : GoErr) (h : f x w = (w1, .err e)) :
    forEach f (x :: xs) w = (w1, .err e) := by
  simp [forEach, h]

/-- A failing call makes `addFile` return its error, in the state reached at that call. -/
theorem failsIn_addFile (env : Env) (ar : Codec) (base : GoString) (fuel : Nat)
    (p : GoString) (w w2 : World) (e : GoErr) (q : GoString) (listed : Bool)
    (h : FailsIn env ar base fuel p w w2 e q listed) :
    addFile env ar base fuel p w = (w2, .err e) := by
  induction h with
  | stat fuel path w e hck hstat => exact addFile_stat_err env ar base fuel path w e hck hstat
  | openFile fuel path w e info hck hstat hopen =>
    exact addFile_open_err env ar base fuel path w e info hck hstat hopen
  | write fuel path w e info file hck hstat hopen hwr =>
    exact addFile_write_err env ar base fuel path w e info file hck hstat hopen hwr
  | readdirnames fuel path w e info file hck hstat hopen hwr hdir hrd =>
    exact addFile_readdir_err env ar base fuel path w e info file hck hstat hopen hwr hdir hrd
  | child fuel path w w1 w2 e info file pre post c q listed hck hstat hopen hwr hdir hrd hpre
      _ ih =>
    rw [addFile_dir env ar base fuel path w info file (pre ++ c :: post) hck hstat hopen hwr
      hdir hrd, forEach_append _ pre (c :: post) _ w1 hpre]
    exact forEach_cons_err _ c post w1 w2 e ih

theorem getLast?_append_cons {α : Type} (a b : List α) (x : α) (h : b.getLast? = some x) :
    (a ++ b).getLast? = some x := by
  have hne : b ≠ [] := by intro hb; rw [hb] at h; simp at h
  rw [List.getLast?_append_of_ne_nil _ hne]; exact h

/-- The state at a failing call: the failing path `q` is the last path visited,
and the entries written are those of the paths visited, in order, with `q`
among them exactly when the failing call is its `Readdirnames`. -/
theorem failsIn_trace (env : Env) (ar : Codec) (base : GoString) (fuel : Nat)
    (p : GoString) (w w2 : World) (e : GoErr) (q : GoString) (listed : Bool)
    (h : FailsIn env ar base fuel p w w2 e q listed) :
    ∃ newC newW,
      w2 = { w with calls := w.calls ++ newC, written := w.written ++ newW } ∧
      statPaths newC = newW.map Prod.fst ++ (if listed then [] else [q]) ∧
      (statPaths newC).getLast? = some q := by
  induction h with
  | stat fuel path w e hck hstat =>
    exact ⟨[.Stat (replaceByte '\\' '/' path)], [], by simp, rfl, rfl⟩
  | openFile fuel path w e info hck hstat hopen =>
    exact ⟨[.Stat (replaceByte '\\' '/' path), .Open (replaceByte '\\' '/' path)], [],
      by simp, rfl, rfl⟩
  | write fuel path w e info file hck hstat hopen hwr =>
    exact ⟨[.Stat (replaceByte '\\' '/' path), .Open (replaceByte '\\' '/' path)], [],
      by simp, rfl, rfl⟩
  | readdirnames fuel path w e info file hck hstat hopen hwr hdir hrd =>
    exact ⟨_, _, rfl, rfl, rfl⟩
  | child fuel path w w1 w2 e info file pre post c q listed hck hstat hopen hwr hdir hrd hpre
      _ ih =>
    obtain ⟨c2, n2, e2, hs2, hl2⟩ := ih
    have hrun := forEach_archiveRun env base _
      (fun x w0 => addFile_archiveRun env ar base fuel
        (filepathJoin (replaceByte '\\' '/' path) x) w0) pre
      { w with
        calls := w.calls ++ [.Stat (replaceByte '\\' '/' path),
          .Open (replaceByte '\\' '/' path), .Readdirnames (replaceByte '\\' '/' path)],
        written := w.written ++ [(replaceByte '\\' '/' path,
          ⟨info, trimPrefix (trimPrefix (replaceByte '\\' '/' path) base) ['/'], file⟩)] }
    rw [hpre] at hrun
    obtain ⟨c1, n1, e1, _, _, hs1, _⟩ := hrun
    have hs1 := hs1 rfl
    simp only at e1
    refine ⟨[.Stat (replaceByte '\\' '/' path), .Open (replaceByte '\\' '/' path),
        .Readdirnames (replaceByte '\\' '/' path)] ++ c1 ++ c2,
      [(replaceByte '\\' '/' path,
        ⟨info, trimPrefix (trimPrefix (replaceByte '\\' '/' path) base) ['/'], file⟩)]
        ++ n1 ++ n2, ?_, ?_, ?_⟩
    · rw [e2, e1]; simp
    · rw [statPaths_append, statPaths_append, hs1, hs2]
      simp [statPaths]
    · rw [statPaths_append]
      exact getLast?_append_cons _ _ q hl2

/-- C3, as amended: when the targets before the `k`-th are processed without error
and, while the `k`-th is processed, a `Stat`, `Open`, archive `Write` or
`Readdirnames` call fails at a path `q` (the target or a path below it) after
every earlier call succeeded, `rawDirHandler` stops at that call and returns
status 500 with that error, whatever targets follow.  Nothing but filesystem
calls and archive entries was added; the failing path `q` is the last path
visited, so no later path has a call or an entry; and the entries written are, in
order, those of the paths visited before `q`, followed by the entry of `q` itself
exactly when the failing call is its `Readdirnames`, which `addFile` makes after
the `Write`. -/
theorem rawDirHandler_abort (env : Env) (r : Request) (file : DirInfo) (fuel : Nat)
    (w w1 w2 : World) (pre post : List GoString) (p : GoString) (ext : String) (ar : Codec)
    (e : GoErr) (q : GoString) (listed : Bool) (halgo : r.algo ≠ "m3u")
    (hfiles : parseQueryFiles r.files file.Path = .ok (pre ++ p :: post))
    (hcodec : parseQueryAlgorithm r.algo = (ext, some ar, none))
    (hcreate : env.arCreate ar = none)
    (hpre : forEach (addFile env ar (env.CommonPrefix (pre ++ p :: post)) fuel) pre
      (setDisposition env w (attachmentName file "archive".toList ext.toList)) = (w1, .nil))
    (hfail : FailsIn env ar (env.CommonPrefix (pre ++ p :: post)) fuel p w1 w2 e q listed) :
    rawDirHandler env r file fuel w = (w2, 500, .err e) ∧
    ∃ newC newW,
      w2 = { setDisposition env w (attachmentName file "archive".toList ext.toList) with
        calls := w.calls ++ newC, written := w.written ++ newW } ∧
      statPaths newC = newW.map Prod.fst ++ (if listed then [] else [q]) ∧
      (statPaths newC).getLast? = some q := by
  have hp := failsIn_addFile env ar _ fuel p w1 w2 e q listed hfail
  have hloop : forEach (addFile env ar (env.CommonPrefix (pre ++ p :: post)) fuel)
      (pre ++ p :: post)
      (setDisposition env w (attachmentName file "archive".toList ext.toList)) = (w2, .err e) := by
    rw [forEach_append _ pre (p :: post) _ w1 hpre]
    exact forEach_cons_err _ p post w1 w2 e hp
  refine ⟨?_, ?_⟩
  · unfold rawDirHandler
    rw [if_neg halgo, hfiles]
    simp only [hcodec, hcreate, hloop]
  · have hrun := forEach_archiveRun env (env.CommonPrefix (pre ++ p :: post)) _
      (fun x w0 => addFile_archiveRun env ar (env.CommonPrefix (pre ++ p :: post)) fuel x w0)
      pre (setDisposition env w (attachmentName file "archive".toList ext.toList))
    rw [hpre] at hrun
    obtain ⟨c1, n1, e1, _, _, hs1, _⟩ := hrun
    have hs1 := hs1 rfl
    simp only at e1
    obtain ⟨c2, n2, e2, hs2, hl2⟩ := failsIn_trace env ar _ fuel p w1 w2 e q listed hfail
    refine ⟨c1 ++ c2, n1 ++ n2, ?_, ?_, ?_⟩
    · rw [e2, e1]; simp [setDisposition]
    · rw [statPaths_append, hs1, hs2]; simp
    · rw [statPaths_append]
      exact getLast?_append_cons _ _ q hl2

set_option maxRecDepth 100000 in
theorem rawDirHandler_abort_witness :
    parseQueryFiles "f1,dir,f5".toList "/root".toList
      = .ok (["/root/f1".toList] ++ "/root/dir".toList :: ["/root/f5".toList]) ∧
    lockedEnv.Stat "/root/dir/sub".toList = .ok ⟨"sub".toList, true⟩ ∧
    lockedEnv.Open "/root/dir/sub".toList = .ok ⟨"/root/dir/sub".toList, .error (.ext 13)⟩ ∧
    (rawDirHandler lockedEnv ⟨"f1,dir,f5".toList, "zip", []⟩
        ⟨"/root".toList, "root".toList⟩ 3 World.init).2 = (500, .err (.ext 13)) ∧
    (rawDirHandler lockedEnv ⟨"f1,dir,f5".toList, "zip", []⟩
        ⟨"/root".toList, "root".toList⟩ 3 World.init).1.written.map Prod.fst
      = ["/root/f1".toList, "/root/dir".toList, "/root/dir/g1".toList,
         "/root/dir/sub".toList] ∧
    statPaths (rawDirHandler lockedEnv ⟨"f1,dir,f5".toList, "zip", []⟩
        ⟨"/root".toList, "root".toList⟩ 3 World.init).1.calls
      = ["/root/f1".toList, "/root/dir".toList, "/root/dir/g1".toList,
         "/root/dir/sub".toList] := by
  have hfail : FailsIn lockedEnv .Zip
      (lockedEnv.CommonPrefix (["/root/f1".toList] ++ "/root/dir".toList :: ["/root/f5".toList]))
      3 "/root/dir".toList _ _ (.ext 13) _ _ := FailsIn.child
    2 "/root/dir".toList
    (forEach (addFile lockedEnv .Zip "/root".toList 3) ["/root/f1".toList]
      (setDisposition lockedEnv World.init
        (attachmentName ⟨"/root".toList, "root".toList⟩ "archive".toList ".zip".toList))).1
    _ _ (.ext 13) ⟨"dir".toList, true⟩
    ⟨"/root/dir".toList, .ok ["g1".toList, "sub".toList]⟩ ["g1".toList] [] "sub".toList _ _
    (by decide) (by decide) (by decide) (by decide) (by decide) (by decide) rfl
    (FailsIn.readdirnames 1 _ _ (.ext 13) ⟨"sub".toList, true⟩
      ⟨"/root/dir/sub".toList, .error (.ext 13)⟩ (by decide) (by decide) (by decide)
      (by decide) (by decide) (by decide))
  have h := rawDirHandler_abort lockedEnv ⟨"f1,dir,f5".toList, "zip", []⟩
    ⟨"/root".toList, "root".toList⟩ 3 World.init _ _ ["/root/f1".toList] ["/root/f5".toList]
    "/root/dir".toList ".zip" .Zip (.ext 13) _ _ (by decide) (by decide) (by decide)
    (by decide) (by decide) hfail
  refine ⟨by decide, by decide, by decide, ?_, by decide, by decide⟩
  rw [h.1]

/-- C3 as stated fails: the single target `/root/dir/sub` is a directory whose
`Stat`, `Open` and archive `Write` succeed and whose `Readdirnames` fails.  The
export returns that error with status 500, no path was processed before the
failing one, and yet the archive holds an entry: that of the failing path. -/
theorem rawDirHandler_unlisted_directory :
    parseQueryFiles "dir/sub".toList "/root".toList = .ok ["/root/dir/sub".toList] ∧
    lockedEnv.Stat "/root/dir/sub".toList = .ok ⟨"sub".toList, true⟩ ∧
    lockedEnv.Open "/root/dir/sub".toList = .ok ⟨"/root/dir/sub".toList, .error (.ext 13)⟩ ∧
    (rawDirHandler lockedEnv ⟨"dir/sub".toList, "zip", []⟩
        ⟨"/root".toList, "root".toList⟩ 3 World.init).2 = (500, .err (.ext 13)) ∧
    (rawDirHandler lockedEnv ⟨"dir/sub".toList, "zip", []⟩
        ⟨"/root".toList, "root".toList⟩ 3 World.init).1.calls
      = [.Stat "/root/dir/sub".toList, .Open "/root/dir/sub".toList,
         .Readdirnames "/root/dir/sub".toList] ∧
    (rawDirHandler lockedEnv ⟨"dir/sub".toList, "zip", []⟩
        ⟨"/root".toList, "root".toList⟩ 3 World.init).1.written.map Prod.fst
      = ["/root/dir/sub".toList] := by
  refine ⟨by decide, by decide, by decide, by decide, by decide, by decide⟩

/-! ## Where the code departs from the resolver and playlist claims -/

/-- C6 fails on the code: `parseQueryFiles` cleans a name with `slashClean` and
never looks at backslashes, which `addFile` and `addPlaylist` replace by `/` only
afterwards.  With base `/srv` the token `a%5Cb` resolves to `/srv/a\b`, and the
token `..%5C..%5Cetc` resolves to `/srv/..\..\etc`; `addFile` then asks `Check`
and `Stat` about `/srv/../../etc`, a path with `..` elements. -/
theorem parseQueryFiles_backslash_traversal :
    IsCanonicalAbs "/srv".toList ∧
    (QueryUnescape (replacePlus "a%5Cb".toList)).isOk = true ∧
    parseQueryFiles "a%5Cb".toList "/srv".toList = .ok ["/srv/a\\b".toList] ∧
    '\\' ∈ "/srv/a\\b".toList ∧
    (QueryUnescape (replacePlus "..%5C..%5Cetc".toList)).isOk = true ∧
    parseQueryFiles "..%5C..%5Cetc".toList "/srv".toList = .ok ["/srv/..\\..\\etc".toList] ∧
    '\\' ∈ "/srv/..\\..\\etc".toList ∧
    (addFile emptyEnv .Zip "/srv".toList 1 "/srv/..\\..\\etc".toList World.init).1.calls
      = [.Stat "/srv/../../etc".toList] ∧
    ['.', '.'] ∈ segments "/srv/../../etc".toList :=
  ⟨⟨by decide, by decide⟩, by decide, by decide, by decide, by decide, by decide, by decide,
    by decide, by decide⟩

set_option maxRecDepth 100000 in
/-- C4 fails on the code, by the slip of C5: `addPlaylist` hands the download line
to `fmt.Fprintf` as the format.  In the tree `/music` with the audio files `100%`
and `b.mp3` every call succeeds and the export returns status 0 and no error, and
both links are saved; but the chunk written for `100%` is
`http://h/api/public/dl/AAECAwQF/100%!` + newline + `(MISSING)`, so the body has
the lines `#EXTM3U`, `…/100%!` and `(MISSING)http://h/…/b.mp3`: neither of the
two download lines is a line of the body. -/
theorem rawPlaylistHandler_percent_name :
    WalkOk percentEnv ["/music".toList, "/music/100%".toList, "/music/b.mp3".toList]
      musicRank ∧
    TargetsOk percentEnv ["/music".toList, "/music/100%".toList, "/music/b.mp3".toList]
      musicRank 3 ["/music".toList] ∧
    (rawPlaylistHandler percentEnv ⟨[], "m3u", "http://h".toList⟩
        ⟨"/music".toList, "music".toList⟩ 3 World.init).2 = (0, .nil) ∧
    (rawPlaylistHandler percentEnv ⟨[], "m3u", "http://h".toList⟩
        ⟨"/music".toList, "music".toList⟩ 3 World.init).1.links.map (fun l => l.Path)
      = ["/music/100%".toList, "/music/b.mp3".toList] ∧
    (rawPlaylistHandler percentEnv ⟨[], "m3u", "http://h".toList⟩
        ⟨"/music".toList, "music".toList⟩ 3 World.init).1.sink
      = ["#EXTM3U\n".toList, "http://h/api/public/dl/AAECAwQF/100%!\n(MISSING)".toList,
         "http://h/api/public/dl/EBESExQV/b.mp3\n".toList] ∧
    (rawPlaylistHandler percentEnv ⟨[], "m3u", "http://h".toList⟩
        ⟨"/music".toList, "music".toList⟩ 3 World.init).1.sink.flatten.splitOn '\n'
      = ["#EXTM3U".toList, "http://h/api/public/dl/AAECAwQF/100%!".toList,
         "(MISSING)http://h/api/public/dl/EBESExQV/b.mp3".toList, []] ∧
    downloadLine ⟨[], "m3u", "http://h".toList⟩ percentEnv 0
        ⟨"/music/100%".toList, .error (.ext 20)⟩
      = "http://h/api/public/dl/AAECAwQF/100%\n".toList ∧
    downloadLine ⟨[], "m3u", "http://h".toList⟩ percentEnv 1
        ⟨"/music/b.mp3".toList, .error (.ext 20)⟩
      = "http://h/api/public/dl/EBESExQV/b.mp3\n".toList := by
  refine ⟨?_, ?_, by decide, by decide, by decide, by decide, by decide, by decide⟩
  · unfold WalkOk; decide
  · unfold TargetsOk; decide

end RawExport
